import Mathlib

/-!
Verification of the core text-transformation engine of `arxiv_latex_cleaner`
(`arxiv_latex_cleaner/arxiv_latex_cleaner.py`), via a shallow embedding of the
relevant functions on `List Char`.

Embedded components:
* `_simplify_conditional_blocks` (tokenizer, tree builder, deletion spans,
  right-to-left span application),
* `_remove_comments_inline`,
* `_remove_command`,
* `_search_reference` (strict and loose modes),
* `_keep_only_referenced_tex`.
-/

namespace ArxivCleaner

/-- Python `str.isspace` restricted to the ASCII whitespace characters used by
the `\s` regex class. -/
def isSpaceChar (c : Char) : Bool :=
  c = ' ' || c = '\t' || c = '\n' || c = '\r' || c = '\x0b' || c = '\x0c'

/-- Python `\w` word characters (ASCII letters, digits, underscore). -/
def wordChar (c : Char) : Bool :=
  c.isAlphanum || c = '_'

/-- The slice `t[a:b]` of a character list. -/
def slice (t : List Char) (a b : Nat) : List Char :=
  (t.drop a).take (b - a)

/-- Drop a single leading whitespace character, if any (used when a deletion
span is extended by one following whitespace character). -/
def eatWS : List Char → List Char
  | [] => []
  | c :: cs => if isSpaceChar c then cs else c :: cs

/-! ## Tokenizer for `\if*` / `\else` / `\fi`

Embeds the scan of the compiled pattern
`(?!(?<=\\newif\s*))\if\s*(\w+)|\else(?!\w)|\fi(?!\w)` over the text,
producing the list of non-overlapping matches in order. -/

inductive TokKind where
  | ifk (body : List Char) : TokKind
  | elsek : TokKind
  | fik : TokKind
  deriving DecidableEq, Repr

structure Tok where
  s : Nat
  e : Nat
  k : TokKind
  deriving DecidableEq, Repr

def newifRev : List Char := "\\newif".toList.reverse

/-- Try to match one token of the conditional pattern at the start of `s`,
where `revBefore` is the (reversed) text before the current position (needed
for the `(?<=\newif\s*)` lookbehind).  Returns the match length and kind. -/
def tryTok (revBefore s : List Char) : Option (Nat × TokKind) :=
  match s with
  | '\\' :: 'i' :: 'f' :: rest =>
      let ws := rest.takeWhile isSpaceChar
      let rest2 := rest.drop ws.length
      let wrd := rest2.takeWhile wordChar
      if wrd = [] then none
      else if newifRev.isPrefixOf (revBefore.dropWhile isSpaceChar) then none
      else some (3 + ws.length + wrd.length, .ifk ('\\' :: 'i' :: 'f' :: (ws ++ wrd)))
  | '\\' :: 'e' :: 'l' :: 's' :: 'e' :: rest =>
      match rest with
      | c :: _ => if wordChar c then none else some (5, .elsek)
      | [] => some (5, .elsek)
  | '\\' :: 'f' :: 'i' :: rest =>
      match rest with
      | c :: _ => if wordChar c then none else some (3, .fik)
      | [] => some (3, .fik)
  | _ => none

theorem takeWhile_length_le (p : Char → Bool) (l : List Char) :
    (l.takeWhile p).length ≤ l.length := by
  induction l with
  | nil => simp
  | cons a l ih =>
    rw [List.takeWhile_cons]
    split <;> simp_all

theorem tryTok_len_pos {rb s : List Char} {len : Nat} {k : TokKind}
    (h : tryTok rb s = some (len, k)) : 0 < len ∧ len ≤ s.length := by
  unfold tryTok at h
  split at h
  · rename_i rest
    split at h
    · exact absurd h (by simp)
    · simp only [] at h
      split at h
      · exact absurd h (by simp)
      · simp only [Option.some.injEq, Prod.mk.injEq] at h
        obtain ⟨h1, -⟩ := h
        subst h1
        refine ⟨by omega, ?_⟩
        have hws := takeWhile_length_le isSpaceChar rest
        have hw := takeWhile_length_le wordChar
            (rest.drop (rest.takeWhile isSpaceChar).length)
        simp only [List.length_drop] at hw
        simp only [List.length_cons]
        omega
  · rename_i rest
    split at h
    · split at h
      · exact absurd h (by simp)
      · simp only [Option.some.injEq, Prod.mk.injEq] at h
        obtain ⟨h1, -⟩ := h
        subst h1
        simp only [List.length_cons]
        exact ⟨by omega, by omega⟩
    · simp only [Option.some.injEq, Prod.mk.injEq] at h
      obtain ⟨h1, -⟩ := h
      subst h1
      simp only [List.length_cons]
      exact ⟨by omega, by omega⟩
  · rename_i rest
    split at h
    · split at h
      · exact absurd h (by simp)
      · simp only [Option.some.injEq, Prod.mk.injEq] at h
        obtain ⟨h1, -⟩ := h
        subst h1
        simp only [List.length_cons]
        exact ⟨by omega, by omega⟩
    · simp only [Option.some.injEq, Prod.mk.injEq] at h
      obtain ⟨h1, -⟩ := h
      subst h1
      simp only [List.length_cons]
      exact ⟨by omega, by omega⟩
  · exact absurd h (by simp)

/-- Scan the remaining text `s` (at absolute position `pos`, with reversed
prefix `revBefore`), producing the list of matches in order.  Every step
consumes at least one character, so fuel `s.length` is always sufficient. -/
def scanAux : Nat → List Char → Nat → List Char → List Tok
  | 0, _, _, _ => []
  | fuel + 1, revBefore, pos, s =>
    match s with
    | [] => []
    | c :: cs =>
      match tryTok revBefore s with
      | some (len, k) =>
          ⟨pos, pos + len, k⟩ ::
            scanAux fuel ((s.take len).reverse ++ revBefore) (pos + len) (s.drop len)
      | none => scanAux fuel (c :: revBefore) (pos + 1) cs

/-- All conditional-pattern tokens of `t`, in order. -/
def scanTokens (t : List Char) : List Tok := scanAux t.length [] 0 t

/-! ## Conditional tree builder -/

inductive CErr where
  | unmatchedElse | duplicateElse | unmatchedFi | unmatchedStart
  deriving DecidableEq, Repr

inductive CKind where
  | ffalse | ttrue | unknown
  deriving DecidableEq, Repr

mutual
inductive CTree where
  | node (kind : CKind) (sS sE : Nat) (left : CForest) (els : Option (Nat × Nat))
      (right : CForest) (eS eE : Nat) : CTree
  deriving DecidableEq, Repr
inductive CForest where
  | nil : CForest
  | cons (t : CTree) (ts : CForest) : CForest
  deriving DecidableEq, Repr
end

def CForest.snoc : CForest → CTree → CForest
  | .nil, t => .cons t .nil
  | .cons a ts, t => .cons a (ts.snoc t)

/-- An open conditional node during parsing (the mutable dict of the source,
before its `end` token is known). -/
structure Frame where
  kind : CKind
  sS : Nat
  sE : Nat
  left : CForest
  els : Option (Nat × Nat)
  right : CForest
  deriving Repr

/-- `add_subtree`: a closed child goes to the left list before `\else` was
seen, to the right list after. -/
def Frame.addChild (f : Frame) (n : CTree) : Frame :=
  match f.els with
  | none => { f with left := f.left.snoc n }
  | some _ => { f with right := f.right.snoc n }

/-- The fixed exception list of conditional-like command names. -/
def defaultExceptions : List (List Char) :=
  [ "iff",
    "ifpatchable", "ifpatchable*", "ifbool", "iftoggle", "ifdef", "ifcsdef",
    "ifundef", "ifcsundef", "ifdefmacro", "ifcsmacro", "ifdefparam",
    "ifcsparam", "ifcsprefix", "ifdefprotected", "ifcsprotected",
    "ifdefltxprotect", "ifcsltxprotect", "ifdefempty", "ifcsempty",
    "ifdefvoid", "ifcsvoid", "ifdefequal", "ifcsequal", "ifdefstring",
    "ifcsstring", "ifdefstrequal", "ifcsstrequal", "ifdefcounter",
    "ifcscounter", "ifltxcounter", "ifdeflength", "ifcslength", "ifdefdimen",
    "ifcsdimen", "ifstrequal", "ifstrempty", "ifblank", "ifnumcomp",
    "ifnumequal", "ifnumodd", "ifdimcomp", "ifdimequal", "ifdimgreater",
    "ifdimless", "ifboolexpr", "ifboolexpe", "ifinlist", "ifinlistcs",
    "ifrmnum",
    "ifpdfstringunicode",
    "ifthenelse" ].map String.toList

/-- The state machine over the token stream building the conditional tree.
`stack` holds the open frames innermost-first; `acc` is the list of closed
top-level trees in order. -/
def build (exc : List (List Char)) :
    List Tok → List Frame → CForest → Except CErr CForest
  | [], [], acc => .ok acc
  | [], _ :: _, _ => .error .unmatchedStart
  | t :: ts, stack, acc =>
    match t.k with
    | .ifk body =>
      let ns := body.filter (· ≠ ' ')
      if ns = "\\iffalse".toList ∨ ns = "\\if0".toList then
        build exc ts (⟨.ffalse, t.s, t.e, .nil, none, .nil⟩ :: stack) acc
      else if ns = "\\iftrue".toList ∨ ns = "\\if1".toList then
        build exc ts (⟨.ttrue, t.s, t.e, .nil, none, .nil⟩ :: stack) acc
      else if ns.drop 1 ∈ exc then
        build exc ts stack acc
      else
        build exc ts (⟨.unknown, t.s, t.e, .nil, none, .nil⟩ :: stack) acc
    | .elsek =>
      match stack with
      | [] => .error .unmatchedElse
      | f :: fs =>
        if f.els.isSome then .error .duplicateElse
        else build exc ts ({ f with els := some (t.s, t.e) } :: fs) acc
    | .fik =>
      match stack with
      | [] => .error .unmatchedFi
      | f :: fs =>
        let n := CTree.node f.kind f.sS f.sE f.left f.els f.right t.s t.e
        match fs with
        | [] => build exc ts [] (acc.snoc n)
        | g :: gs => build exc ts (g.addChild n :: gs) acc

/-! ## Deletion spans (`traverse_tree`) and their application -/

mutual
/-- Deletion spans contributed by one tree (`traverse_tree` in the source). -/
def collectT : CTree → List (Nat × Nat)
  | .node k sS sE left els right eS eE =>
    match k, els with
    | .ffalse, none => [(sS, eE)]
    | .ffalse, some (_, lE) => (sS, lE) :: (collectF right ++ [(eS, eE)])
    | .ttrue, none => [(sS, sE), (eS, eE)]
    | .ttrue, some (lS, _) => (sS, sE) :: (collectF left ++ [(lS, eE)])
    | .unknown, _ => collectF left ++ collectF right
/-- Deletion spans of a forest, in order. -/
def collectF : CForest → List (Nat × Nat)
  | .nil => []
  | .cons t ts => collectT t ++ collectF ts
end

/-- Delete `t[sp.1:sp.2]`, extending the deletion by a single immediately
following whitespace character if there is one. -/
def delSpan (t : List Char) (sp : Nat × Nat) : List Char :=
  let e := if sp.2 < t.length && isSpaceChar (t.getD sp.2 'x') then sp.2 + 1 else sp.2
  t.take sp.1 ++ t.drop e

/-- Apply the collected deletion spans right-to-left (the reversed loop of the
source). -/
def applySpans (t : List Char) (spans : List (Nat × Nat)) : List Char :=
  spans.foldr (fun sp acc => delSpan acc sp) t

/-- Shallow embedding of `_simplify_conditional_blocks`. -/
def simplifyConditionalBlocks (text : List Char) (ifExceptions : List (List Char)) :
    List Char :=
  match build (defaultExceptions ++ ifExceptions) (scanTokens text) [] .nil with
  | .error _ => text
  | .ok forest => applySpans text (collectF forest)

def CTree.sS : CTree → Nat | .node _ s _ _ _ _ _ _ => s
def CTree.sE : CTree → Nat | .node _ _ e _ _ _ _ _ => e
def CTree.eE : CTree → Nat | .node _ _ _ _ _ _ _ e => e

/-- End position of the last tree of a forest (`d` if the forest is empty). -/
def CForest.lastEnd (d : Nat) : CForest → Nat
  | .nil => d
  | .cons n ns => ns.lastEnd n.eE

/-! ## The resolved-text semantics of a well-formed conditional forest

`resolveF text lo ns hi tail` is the claim's "manually pre-resolved" text of the
region `text[lo:hi]` whose top-level conditionals are `ns`, followed by the
already-resolved continuation `tail`.  A deleted construct additionally
consumes one directly following whitespace character of the resolved
continuation, matching the span-application rule. -/

mutual
def resolveT (text : List Char) : CTree → List Char → List Char
  | .node k sS sE left els right eS eE, tail =>
    match k, els with
    | .ffalse, none => eatWS tail
    | .ffalse, some (_, lE) => eatWS (resolveF text lE right eS (eatWS tail))
    | .ttrue, none => eatWS (slice text sE eS ++ eatWS tail)
    | .ttrue, some (lS, _) => eatWS (resolveF text sE left lS (eatWS tail))
    | .unknown, none =>
        slice text sS sE ++ resolveF text sE left eS (slice text eS eE ++ tail)
    | .unknown, some (lS, lE) =>
        slice text sS sE ++ resolveF text sE left lS
          (slice text lS lE ++ resolveF text lE right eS (slice text eS eE ++ tail))
def resolveF (text : List Char) (lo : Nat) : CForest → Nat → List Char → List Char
  | .nil, hi, tail => slice text lo hi ++ tail
  | .cons n ns, hi, tail =>
      slice text lo n.sS ++ resolveT text n (resolveF text n.eE ns hi tail)
end

/-! ## Ordering invariants -/

/-- `SpanChain lo hi spans`: the spans are nonempty, in strictly increasing
order, pairwise disjoint (each start at or after the previous end), and
contained in `[lo, hi]`. -/
def SpanChain (lo hi : Nat) : List (Nat × Nat) → Prop
  | [] => lo ≤ hi
  | (s, e) :: rest => lo ≤ s ∧ s < e ∧ SpanChain e hi rest

/-- Token spans are in order, strictly increasing, within `[lo, hi]`. -/
def toksOrdered (hi : Nat) : Nat → List Tok → Prop
  | lo, [] => lo ≤ hi
  | lo, t :: ts => lo ≤ t.s ∧ t.s < t.e ∧ toksOrdered hi t.e ts

mutual
/-- Positions inside one tree are properly nested and increasing. -/
def treeOrd : CTree → Prop
  | .node _ sS sE left els right eS eE =>
    sS < sE ∧ eS < eE ∧
    match els with
    | none => forestOrd sE eS left ∧ right = .nil
    | some (lS, lE) => forestOrd sE lS left ∧ lS < lE ∧ forestOrd lE eS right
/-- Trees of a forest are ordered and contained in `[lo, hi]`. -/
def forestOrd (lo hi : Nat) : CForest → Prop
  | .nil => lo ≤ hi
  | .cons n ns => lo ≤ n.sS ∧ treeOrd n ∧ forestOrd n.eE hi ns
end

theorem SpanChain.mono_lo {lo lo' hi : Nat} {l : List (Nat × Nat)}
    (h : SpanChain lo hi l) (hlo : lo' ≤ lo) : SpanChain lo' hi l := by
  cases l with
  | nil => exact le_trans hlo h
  | cons p rest =>
    obtain ⟨s, e⟩ := p
    obtain ⟨h1, h2, h3⟩ := h
    exact ⟨le_trans hlo h1, h2, h3⟩

theorem SpanChain.mono_hi {lo hi hi' : Nat} {l : List (Nat × Nat)}
    (h : SpanChain lo hi l) (hhi : hi ≤ hi') : SpanChain lo hi' l := by
  induction l generalizing lo with
  | nil => exact le_trans h hhi
  | cons p rest ih =>
    obtain ⟨s, e⟩ := p
    obtain ⟨h1, h2, h3⟩ := h
    exact ⟨h1, h2, ih h3⟩

theorem SpanChain.append {lo m hi : Nat} {a b : List (Nat × Nat)}
    (ha : SpanChain lo m a) (hb : SpanChain m hi b) :
    SpanChain lo hi (a ++ b) := by
  induction a generalizing lo with
  | nil => exact hb.mono_lo ha
  | cons p rest ih =>
    obtain ⟨s, e⟩ := p
    obtain ⟨h1, h2, h3⟩ := ha
    exact ⟨h1, h2, ih h3⟩

theorem SpanChain.le {lo hi : Nat} {l : List (Nat × Nat)}
    (h : SpanChain lo hi l) : lo ≤ hi := by
  induction l generalizing lo with
  | nil => exact h
  | cons p rest ih =>
    obtain ⟨s, e⟩ := p
    obtain ⟨h1, h2, h3⟩ := h
    exact le_trans h1 (le_trans (le_of_lt h2) (ih h3))

mutual
theorem treeOrd_le : ∀ {n : CTree}, treeOrd n → n.sS ≤ n.eE
  | .node _ sS sE left els right eS eE, h => by
    obtain ⟨h1, h2, h3⟩ := h
    simp only [CTree.sS, CTree.eE]
    cases els with
    | none =>
      obtain ⟨h4, -⟩ := h3
      have := forestOrd_le h4
      omega
    | some p =>
      obtain ⟨lS, lE⟩ := p
      obtain ⟨h4, h5, h6⟩ := h3
      have := forestOrd_le h4
      have := forestOrd_le h6
      omega
theorem forestOrd_le : ∀ {lo hi : Nat} {ns : CForest}, forestOrd lo hi ns → lo ≤ hi
  | _, _, .nil, h => h
  | _, _, .cons n ns, h => by
    obtain ⟨h1, h2, h3⟩ := h
    have h4 := forestOrd_le h3
    have h5 := treeOrd_le h2
    omega
end

mutual
theorem collectT_chain {n : CTree} (h : treeOrd n) :
    SpanChain n.sS n.eE (collectT n) := by
  obtain ⟨k, sS, sE, left, els, right, eS, eE⟩ := n
  obtain ⟨h1, h2, h3⟩ := h
  simp only [CTree.sS, CTree.eE]
  cases k with
  | ffalse =>
    cases els with
    | none =>
      obtain ⟨h4, h5⟩ := h3
      have := forestOrd_le h4
      simp only [collectT]
      exact ⟨le_refl _, by omega, le_refl _⟩
    | some p =>
      obtain ⟨lS, lE⟩ := p
      obtain ⟨h4, h5, h6⟩ := h3
      have hl := forestOrd_le h4
      have hr := forestOrd_le h6
      simp only [collectT]
      refine ⟨le_refl _, by omega, ?_⟩
      exact (collectF_chain h6).append ⟨le_refl _, h2, le_refl _⟩
  | ttrue =>
    cases els with
    | none =>
      obtain ⟨h4, h5⟩ := h3
      have := forestOrd_le h4
      simp only [collectT]
      exact ⟨le_refl _, h1, by omega, h2, le_refl _⟩
    | some p =>
      obtain ⟨lS, lE⟩ := p
      obtain ⟨h4, h5, h6⟩ := h3
      have hl := forestOrd_le h4
      have hr := forestOrd_le h6
      simp only [collectT]
      refine ⟨le_refl _, h1, ?_⟩
      exact (collectF_chain h4).append ⟨le_refl _, by omega, le_refl _⟩
  | unknown =>
    cases els with
    | none =>
      obtain ⟨h4, h5⟩ := h3
      subst h5
      simp only [collectT, collectF, List.append_nil]
      exact ((collectF_chain h4).mono_lo (by omega)).mono_hi (by omega)
    | some p =>
      obtain ⟨lS, lE⟩ := p
      obtain ⟨h4, h5, h6⟩ := h3
      simp only [collectT]
      exact (((collectF_chain h4).mono_lo (by omega)).append
        ((collectF_chain h6).mono_lo (by omega))).mono_hi (by omega)
theorem collectF_chain {lo hi : Nat} {ns : CForest} (h : forestOrd lo hi ns) :
    SpanChain lo hi (collectF ns) := by
  cases ns with
  | nil => exact h
  | cons n ns =>
    obtain ⟨h1, h2, h3⟩ := h
    simp only [collectF]
    exact ((collectT_chain h2).mono_lo h1).append (collectF_chain h3)
end

/-! ## The builder produces ordered forests -/

/-- The position at which the next child of an open frame would start. -/
def Frame.cursor (f : Frame) : Nat :=
  match f.els with
  | none => f.left.lastEnd f.sE
  | some (_, lE) => f.right.lastEnd lE

/-- Well-ordering of an open frame. -/
def FrameOrd (f : Frame) : Prop :=
  f.sS < f.sE ∧
  match f.els with
  | none => forestOrd f.sE (f.left.lastEnd f.sE) f.left ∧ f.right = .nil
  | some (lS, lE) =>
      forestOrd f.sE (f.left.lastEnd f.sE) f.left ∧ f.left.lastEnd f.sE ≤ lS ∧
      lS < lE ∧ forestOrd lE (f.right.lastEnd lE) f.right

/-- Well-ordering of the stack of open frames (innermost first), at current
position `p`, where `accLE` bounds the already closed top-level trees. -/
def stackOrd (accLE : Nat) : List Frame → Nat → Prop
  | [], p => accLE ≤ p
  | f :: fs, p => FrameOrd f ∧ f.cursor ≤ p ∧ stackOrd accLE fs f.sS

theorem stackOrd_mono {a : Nat} {st : List Frame} {p q : Nat}
    (h : stackOrd a st p) (hpq : p ≤ q) : stackOrd a st q := by
  cases st with
  | nil => exact le_trans h hpq
  | cons f fs => exact ⟨h.1, le_trans h.2.1 hpq, h.2.2⟩

theorem lastEnd_snoc : ∀ (ns : CForest) (n : CTree) (d : Nat),
    (ns.snoc n).lastEnd d = n.eE
  | .nil, _, _ => rfl
  | .cons m ms, n, _ => lastEnd_snoc ms n m.eE

theorem forestOrd_weaken_hi : ∀ {ns : CForest} {lo h1 h2 : Nat},
    forestOrd lo h1 ns → h1 ≤ h2 → forestOrd lo h2 ns
  | .nil, _, _, _, h, hle => le_trans h hle
  | .cons _ _, _, _, _, h, hle => by
    obtain ⟨a, b, c⟩ := h
    exact ⟨a, b, forestOrd_weaken_hi c hle⟩

theorem forestOrd_snoc : ∀ {ns : CForest} {lo : Nat} {n : CTree},
    forestOrd lo (ns.lastEnd lo) ns → ns.lastEnd lo ≤ n.sS → treeOrd n →
    forestOrd lo n.eE (ns.snoc n)
  | .nil, _, _, _, hle, hn => ⟨hle, hn, le_refl _⟩
  | .cons _ _, _, _, h, hle, hn => by
    obtain ⟨a, b, c⟩ := h
    exact ⟨a, b, forestOrd_snoc c hle hn⟩

theorem build_ok_ord (exc : List (List Char)) :
    ∀ (toks : List Tok) (stack : List Frame) (acc : CForest) (p hi : Nat)
      (forest : CForest),
    toksOrdered hi p toks →
    forestOrd 0 (acc.lastEnd 0) acc →
    stackOrd (acc.lastEnd 0) stack p →
    build exc toks stack acc = .ok forest →
    forestOrd 0 hi forest := by
  intro toks
  induction toks with
  | nil =>
    intro stack acc p hi forest htoks hacc hstack hb
    cases stack with
    | nil =>
      simp only [build, Except.ok.injEq] at hb
      subst hb
      exact forestOrd_weaken_hi hacc (le_trans hstack htoks)
    | cons f fs => exact absurd hb (by simp [build])
  | cons t ts ih =>
    intro stack acc p hi forest htoks hacc hstack hb
    obtain ⟨hps, hse, htoks'⟩ := htoks
    obtain ⟨s, e, k⟩ := t
    simp only at hps hse htoks'
    cases k with
    | ifk body =>
      simp only [build] at hb
      have hpush : ∀ kd, stackOrd (acc.lastEnd 0)
          (⟨kd, s, e, .nil, none, .nil⟩ :: stack) e := by
        intro kd
        refine ⟨⟨hse, le_refl _, rfl⟩, le_refl _, ?_⟩
        exact stackOrd_mono hstack hps
      split at hb
      · exact ih _ _ e hi forest htoks' hacc (hpush _) hb
      · split at hb
        · exact ih _ _ e hi forest htoks' hacc (hpush _) hb
        · split at hb
          · exact ih _ _ e hi forest htoks' hacc
              (stackOrd_mono hstack (by omega)) hb
          · exact ih _ _ e hi forest htoks' hacc (hpush _) hb
    | elsek =>
      simp only [build] at hb
      cases stack with
      | nil => exact absurd hb (by simp)
      | cons f fs =>
        simp only at hb
        split at hb
        · exact absurd hb (by simp)
        · rename_i hnone
          have hfels : f.els = none := by
            cases hels : f.els
            · rfl
            · rw [hels] at hnone; simp at hnone
          obtain ⟨hf, hcur, hst⟩ := hstack
          obtain ⟨hf1, hf2⟩ := hf
          rw [hfels] at hf2
          obtain ⟨hleft, hright⟩ := hf2
          have hcur' : f.left.lastEnd f.sE ≤ p := by
            have : f.cursor = f.left.lastEnd f.sE := by
              simp [Frame.cursor, hfels]
            rw [this] at hcur
            exact hcur
          refine ih _ _ e hi forest htoks' hacc ?_ hb
          refine ⟨⟨hf1, ?_⟩, ?_, hst⟩
          · simp only [hfels]
            refine ⟨hleft, by omega, hse, ?_⟩
            rw [hright]
            exact le_refl _
          · simp [Frame.cursor, hright, CForest.lastEnd]
    | fik =>
      simp only [build] at hb
      cases stack with
      | nil => exact absurd hb (by simp)
      | cons f fs =>
        obtain ⟨hf, hcur, hst⟩ := hstack
        obtain ⟨hf1, hf2⟩ := hf
        have htn : treeOrd (CTree.node f.kind f.sS f.sE f.left f.els f.right s e) := by
          refine ⟨hf1, hse, ?_⟩
          cases hels : f.els with
          | none =>
            rw [hels] at hf2
            have hcur' : f.cursor = f.left.lastEnd f.sE := by
              simp [Frame.cursor, hels]
            rw [hcur'] at hcur
            exact ⟨forestOrd_weaken_hi hf2.1 (by omega), hf2.2⟩
          | some q =>
            obtain ⟨lS, lE⟩ := q
            rw [hels] at hf2
            obtain ⟨ha, hb2, hc, hd⟩ := hf2
            have hcur' : f.cursor = f.right.lastEnd lE := by
              simp [Frame.cursor, hels]
            rw [hcur'] at hcur
            exact ⟨forestOrd_weaken_hi ha hb2, hc,
              forestOrd_weaken_hi hd (by omega)⟩
        cases fs with
        | nil =>
          simp only at hb
          have hle : acc.lastEnd 0 ≤
              (CTree.node f.kind f.sS f.sE f.left f.els f.right s e).sS := by
            simpa [CTree.sS] using hst
          have hsnoc : forestOrd 0
              ((acc.snoc (CTree.node f.kind f.sS f.sE f.left f.els f.right s e)).lastEnd 0)
              (acc.snoc (CTree.node f.kind f.sS f.sE f.left f.els f.right s e)) := by
            rw [lastEnd_snoc]
            exact forestOrd_snoc hacc hle htn
          refine ih _ _ e hi forest htoks' hsnoc ?_ hb
          rw [lastEnd_snoc]
          simp [stackOrd, CTree.eE]
        | cons g gs =>
          simp only at hb
          obtain ⟨hg, hgcur, hgst⟩ := hst
          obtain ⟨hg1, hg2⟩ := hg
          refine ih _ _ e hi forest htoks' hacc ?_ hb
          cases hgels : g.els with
          | none =>
            rw [hgels] at hg2
            obtain ⟨hgl, hgr⟩ := hg2
            have hcurg : g.cursor = g.left.lastEnd g.sE := by
              simp [Frame.cursor, hgels]
            rw [hcurg] at hgcur
            have hadd : g.addChild (CTree.node f.kind f.sS f.sE f.left f.els f.right s e)
                = { g with left := CForest.snoc g.left (CTree.node f.kind f.sS f.sE f.left f.els f.right s e) } := by
              simp [Frame.addChild, hgels]
            rw [hadd]
            refine ⟨⟨hg1, ?_⟩, ?_, hgst⟩
            · simp only [hgels]
              refine ⟨?_, hgr⟩
              rw [lastEnd_snoc]
              exact forestOrd_snoc hgl (by simpa [CTree.sS] using hgcur) htn
            · simp [Frame.cursor, hgels, lastEnd_snoc, CTree.eE]
          | some q =>
            obtain ⟨lS, lE⟩ := q
            rw [hgels] at hg2
            obtain ⟨hga, hgb, hgc, hgd⟩ := hg2
            have hcurg : g.cursor = g.right.lastEnd lE := by
              simp [Frame.cursor, hgels]
            rw [hcurg] at hgcur
            have hadd : g.addChild (CTree.node f.kind f.sS f.sE f.left f.els f.right s e)
                = { g with right := CForest.snoc g.right (CTree.node f.kind f.sS f.sE f.left f.els f.right s e) } := by
              simp [Frame.addChild, hgels]
            rw [hadd]
            refine ⟨⟨hg1, ?_⟩, ?_, hgst⟩
            · simp only [hgels]
              refine ⟨hga, hgb, hgc, ?_⟩
              rw [lastEnd_snoc]
              exact forestOrd_snoc hgd (by simpa [CTree.sS] using hgcur) htn
            · simp [Frame.cursor, hgels, lastEnd_snoc, CTree.eE]


theorem toksOrdered_mono_lo {hi lo lo' : Nat} {l : List Tok}
    (h : toksOrdered hi lo l) (hle : lo' ≤ lo) : toksOrdered hi lo' l := by
  cases l with
  | nil => exact le_trans hle h
  | cons t ts => exact ⟨le_trans hle h.1, h.2.1, h.2.2⟩

theorem scanAux_ordered (fuel : Nat) (rb : List Char) (pos : Nat) (s : List Char)
    (hfuel : s.length ≤ fuel) :
    toksOrdered (pos + s.length) pos (scanAux fuel rb pos s) := by
  induction fuel generalizing rb pos s with
  | zero =>
    have : s = [] := by
      cases s with
      | nil => rfl
      | cons c cs => simp at hfuel
    subst this
    exact le_refl _
  | succ fuel ih =>
    cases s with
    | nil =>
      simp only [scanAux]
      exact le_refl _
    | cons c cs =>
      cases ht : tryTok rb (c :: cs) with
      | some lk =>
        obtain ⟨len, k⟩ := lk
        simp only [scanAux, ht]
        have hlp := tryTok_len_pos ht
        simp only [List.length_cons] at hlp
        refine ⟨le_refl _, ?_, ?_⟩
        · show pos < pos + len
          omega
        have hrec := ih (((c :: cs).take len).reverse ++ rb) (pos + len)
          ((c :: cs).drop len)
          (by simp only [List.length_drop, List.length_cons] at *; omega)
        have harith : pos + len + ((c :: cs).drop len).length
            = pos + (c :: cs).length := by
          simp only [List.length_drop, List.length_cons]
          omega
        rw [harith] at hrec
        exact hrec
      | none =>
        simp only [scanAux, ht]
        have hrec := ih (c :: rb) (pos + 1) cs
          (by simp only [List.length_cons] at hfuel; omega)
        have harith : pos + 1 + cs.length = pos + (c :: cs).length := by
          simp only [List.length_cons]
          omega
        rw [harith] at hrec
        exact toksOrdered_mono_lo hrec (by omega)

theorem scanTokens_ordered (t : List Char) :
    toksOrdered t.length 0 (scanTokens t) := by
  have := scanAux_ordered t.length [] 0 t (le_refl _)
  simpa using this

/-- If the builder succeeds on the scanned tokens of `text`, the resulting
forest is well ordered within the text. -/
theorem build_scan_ord {text : List Char} {exc : List (List Char)}
    {forest : CForest}
    (h : build exc (scanTokens text) [] .nil = .ok forest) :
    forestOrd 0 text.length forest :=
  build_ok_ord exc (scanTokens text) [] .nil 0 text.length forest
    (scanTokens_ordered text) (le_refl _) (le_refl _) h

/-! ## Equivalence of right-to-left span application with the recursive
resolution semantics -/

theorem slice_split (t : List Char) {a m b : Nat} (h1 : a ≤ m) (h2 : m ≤ b) :
    slice t a b = slice t a m ++ slice t m b := by
  unfold slice
  have hb : b - a = (m - a) + (b - m) := by omega
  rw [hb, List.take_add, List.drop_drop]
  have h : a + (m - a) = m := by omega
  rw [h]

theorem slice_self (t : List Char) (a : Nat) : slice t a a = [] := by
  simp [slice]

/-- Region-based semantics of span application: the resolved content of
`t[lo:hi]` under the given spans, followed by `tail`. -/
def applyFromT (t : List Char) : List (Nat × Nat) → Nat → Nat → List Char → List Char
  | [], lo, hi, tail => slice t lo hi ++ tail
  | (s, e) :: rest, lo, hi, tail =>
      slice t lo s ++ eatWS (applyFromT t rest e hi tail)

/-- Moving the left anchor of the region forward emits the skipped slice. -/
theorem applyFromT_anchor (t : List Char) {spans : List (Nat × Nat)}
    {lo m hi : Nat} (tail : List Char) (hlo : lo ≤ m) (hch : SpanChain m hi spans) :
    applyFromT t spans lo hi tail = slice t lo m ++ applyFromT t spans m hi tail := by
  cases spans with
  | nil =>
    simp only [applyFromT]
    rw [slice_split t hlo hch, List.append_assoc]
  | cons p rest =>
    obtain ⟨s, e⟩ := p
    obtain ⟨h1, -, -⟩ := hch
    simp only [applyFromT]
    rw [slice_split t hlo h1, List.append_assoc]

/-- Shrinking the right boundary of the region emits the cut slice into the
tail. -/
theorem applyFromT_endSplit (t : List Char) {spans : List (Nat × Nat)}
    {lo m hi : Nat} (tail : List Char) (hch : SpanChain lo m spans) (hm : m ≤ hi) :
    applyFromT t spans lo hi tail
      = applyFromT t spans lo m (slice t m hi ++ tail) := by
  induction spans generalizing lo with
  | nil =>
    simp only [applyFromT]
    rw [slice_split t hch hm, List.append_assoc]
  | cons p rest ih =>
    obtain ⟨s, e⟩ := p
    obtain ⟨-, -, h3⟩ := hch
    simp only [applyFromT]
    rw [ih h3]

/-- Splitting a chain of spans at an intermediate point. -/
theorem applyFromT_append (t : List Char) {A B : List (Nat × Nat)}
    {lo m hi : Nat} (tail : List Char) (hA : SpanChain lo m A)
    (hB : SpanChain m hi B) :
    applyFromT t (A ++ B) lo hi tail
      = applyFromT t A lo m (applyFromT t B m hi tail) := by
  induction A generalizing lo with
  | nil =>
    simp only [List.nil_append, applyFromT]
    exact applyFromT_anchor t tail hA hB
  | cons p rest ih =>
    obtain ⟨s, e⟩ := p
    obtain ⟨-, -, h3⟩ := hA
    simp only [List.cons_append, applyFromT, List.append_eq]
    rw [ih h3]

theorem delSpan_eval' (t : List Char) (s e : Nat) :
    delSpan t (s, e) = t.take s
      ++ t.drop (if e < t.length && isSpaceChar (t.getD e 'x') then e + 1 else e) :=
  rfl

theorem delSpan_eval {t Y : List Char} {s e : Nat} (hse : s ≤ e)
    (hel : e ≤ t.length) :
    delSpan (t.take e ++ Y) (s, e) = t.take s ++ eatWS Y := by
  have hlen : (t.take e).length = e := by
    simp only [List.length_take]
    omega
  have htake : (t.take e ++ Y).take s = t.take s := by
    rw [List.take_append_eq_append_take, hlen]
    have h1 : s - e = 0 := by omega
    rw [h1, List.take_zero, List.append_nil, List.take_take]
    congr 1
    omega
  have hdropE : (t.take e ++ Y).drop e = Y := by
    rw [List.drop_append_eq_append_drop, hlen]
    have h1 : e - e = 0 := by omega
    have h2 : (t.take e).drop e = [] := by
      apply List.drop_eq_nil_of_le
      omega
    rw [h1, h2, List.drop_zero, List.nil_append]
  cases Y with
  | nil =>
    rw [List.append_nil] at htake hdropE ⊢
    have hc : (decide (e < (t.take e).length)
        && isSpaceChar ((t.take e).getD e 'x')) = false := by
      rw [hlen]
      simp
    rw [delSpan_eval', hc]
    simp only [Bool.false_eq_true, if_false]
    rw [htake, hdropE]
    rfl
  | cons y Y2 =>
    have hget : (t.take e ++ y :: Y2).getD e 'x' = y := by
      rw [List.getD_append_right _ _ _ _ (le_of_eq hlen)]
      rw [hlen]
      simp
    have hlt : e < (t.take e ++ y :: Y2).length := by
      rw [List.length_append, hlen]
      simp
    have hdropE1 : (t.take e ++ y :: Y2).drop (e + 1) = Y2 := by
      rw [List.drop_append_eq_append_drop, hlen]
      have h1 : e + 1 - e = 1 := by omega
      have h2 : (t.take e).drop (e + 1) = [] := by
        apply List.drop_eq_nil_of_le
        omega
      rw [h1, h2, List.nil_append]
      rfl
    by_cases hws : isSpaceChar y
    · have hc : (decide (e < (t.take e ++ y :: Y2).length)
          && isSpaceChar ((t.take e ++ y :: Y2).getD e 'x')) = true := by
        rw [hget, hws, decide_eq_true hlt]
        rfl
      rw [delSpan_eval', hc]
      simp only [if_true]
      rw [htake, hdropE1]
      simp [eatWS, hws]
    · have hws' : isSpaceChar y = false := by
        simpa using hws
      have hc : (decide (e < (t.take e ++ y :: Y2).length)
          && isSpaceChar ((t.take e ++ y :: Y2).getD e 'x')) = false := by
        rw [hget, hws']
        simp
      rw [delSpan_eval', hc]
      simp only [Bool.false_eq_true, if_false]
      rw [htake, hdropE]
      simp [eatWS, hws']

theorem slice_zero (t : List Char) (e : Nat) : slice t 0 e = t.take e := by
  simp [slice]

/-- Right-to-left span application agrees with the region-based semantics for a
chain of ordered spans. -/
theorem applySpans_eq {t : List Char} : ∀ {spans : List (Nat × Nat)},
    SpanChain 0 t.length spans →
    applySpans t spans = applyFromT t spans 0 t.length [] := by
  intro spans h
  induction spans with
  | nil =>
    simp [applySpans, applyFromT, slice, List.foldr]
  | cons p rest ih =>
    obtain ⟨s, e⟩ := p
    obtain ⟨h0, hse, hrest⟩ := h
    have hrest0 : SpanChain 0 t.length rest := hrest.mono_lo (by omega)
    have heLen : e ≤ t.length := hrest.le
    have hcons : applySpans t ((s, e) :: rest) = delSpan (applySpans t rest) (s, e) :=
      rfl
    rw [hcons, ih hrest0]
    rw [applyFromT_anchor t [] (Nat.zero_le e) hrest]
    simp only [applyFromT]
    rw [slice_zero, slice_zero]
    exact delSpan_eval (le_of_lt hse) heLen

mutual
theorem applyT_eq_resolveT (t : List Char) :
    ∀ {n : CTree} {lo : Nat} (tail : List Char), treeOrd n → lo ≤ n.sS →
    applyFromT t (collectT n) lo n.eE tail = slice t lo n.sS ++ resolveT t n tail
  | .node k sS sE left els right eS eE, lo, tail, hord, hlo => by
    obtain ⟨h1, h2, h3⟩ := hord
    simp only [CTree.sS, CTree.eE] at hlo ⊢
    cases k with
    | ffalse =>
      cases els with
      | none =>
        simp only [collectT, resolveT, applyFromT, slice_self, List.nil_append]
      | some q =>
        obtain ⟨lS, lE⟩ := q
        obtain ⟨h4, h5, h6⟩ := h3
        have hlel := forestOrd_le h4
        have hrel := forestOrd_le h6
        simp only [collectT, resolveT, applyFromT]
        rw [applyFromT_append t tail (collectF_chain h6)
          (show SpanChain eS eE [(eS, eE)] from ⟨le_refl _, h2, le_refl _⟩)]
        rw [applyF_eq_resolveF t (applyFromT t [(eS, eE)] eS eE tail) h6]
        simp only [applyFromT, slice_self, List.nil_append]
    | ttrue =>
      cases els with
      | none =>
        simp only [collectT, resolveT, applyFromT, slice_self, List.nil_append]
      | some q =>
        obtain ⟨lS, lE⟩ := q
        obtain ⟨h4, h5, h6⟩ := h3
        have hlel := forestOrd_le h4
        have hrel := forestOrd_le h6
        simp only [collectT, resolveT, applyFromT]
        rw [applyFromT_append t tail (collectF_chain h4)
          (show SpanChain lS eE [(lS, eE)] from ⟨le_refl _, by omega, le_refl _⟩)]
        rw [applyF_eq_resolveF t (applyFromT t [(lS, eE)] lS eE tail) h4]
        simp only [applyFromT, slice_self, List.nil_append]
    | unknown =>
      cases els with
      | none =>
        obtain ⟨h4, h5⟩ := h3
        subst h5
        have hlel := forestOrd_le h4
        simp only [collectT, collectF, List.append_nil, resolveT]
        rw [applyFromT_anchor t tail (by omega)
          ((collectF_chain h4).mono_hi (by omega))]
        rw [applyFromT_endSplit t tail (collectF_chain h4) (by omega)]
        rw [applyF_eq_resolveF t (slice t eS eE ++ tail) h4]
        rw [slice_split t hlo (le_of_lt h1), List.append_assoc]
      | some q =>
        obtain ⟨lS, lE⟩ := q
        obtain ⟨h4, h5, h6⟩ := h3
        have hlel := forestOrd_le h4
        have hrel := forestOrd_le h6
        simp only [collectT, resolveT]
        rw [applyFromT_append t tail ((collectF_chain h4).mono_lo (by omega))
          (((collectF_chain h6).mono_lo (by omega)).mono_hi (by omega))]
        rw [applyFromT_anchor t tail (by omega)
          ((collectF_chain h6).mono_hi (by omega))]
        rw [applyFromT_endSplit t tail (collectF_chain h6) (by omega)]
        rw [applyF_eq_resolveF t (slice t eS eE ++ tail) h6]
        rw [applyFromT_anchor t _ (by omega) (collectF_chain h4)]
        rw [applyF_eq_resolveF t _ h4]
        rw [slice_split t hlo (le_of_lt h1), List.append_assoc]
theorem applyF_eq_resolveF (t : List Char) :
    ∀ {ns : CForest} {lo hi : Nat} (tail : List Char), forestOrd lo hi ns →
    applyFromT t (collectF ns) lo hi tail = resolveF t lo ns hi tail
  | .nil, lo, hi, tail, _ => by
    simp only [collectF, applyFromT, resolveF]
  | .cons n ns, lo, hi, tail, hord => by
    obtain ⟨h1, h2, h3⟩ := hord
    simp only [collectF, resolveF]
    rw [applyFromT_append t tail ((collectT_chain h2).mono_lo h1)
      (collectF_chain h3)]
    rw [applyF_eq_resolveF t tail h3]
    rw [applyT_eq_resolveT t (resolveF t n.eE ns hi tail) h2 h1]
end

mutual
/-- No `unknown` conditional occurs in the tree. -/
def noUnknownT : CTree → Bool
  | .node .unknown _ _ _ _ _ _ _ => false
  | .node _ _ _ left _ right _ _ => noUnknownF left && noUnknownF right
def noUnknownF : CForest → Bool
  | .nil => true
  | .cons n ns => noUnknownT n && noUnknownF ns
end

/-! ## Claim theorems for the conditional simplifier -/

/-- C1 (amended): for every text whose conditional tokens build into a
well-formed tree with no unknown conditionals, `_simplify_conditional_blocks`
returns exactly the recursively pre-resolved text (`resolveF`), where:
a resolved-false block without `\else` disappears entirely; a resolved-false
block with `\else` keeps only its recursively-resolved else-branch body; a
resolved-true block **with** `\else` keeps its recursively-resolved then-branch
body; but a resolved-true block **without** `\else` keeps its then-branch body
verbatim (nested conditionals inside it are *not* resolved, contrary to the
original claim); each deleted region additionally consumes one directly
following whitespace character. -/
theorem simplify_resolves (text : List Char) (exc : List (List Char))
    (forest : CForest)
    (hb : build (defaultExceptions ++ exc) (scanTokens text) [] .nil = .ok forest)
    (_hnu : noUnknownF forest = true) :
    simplifyConditionalBlocks text exc = resolveF text 0 forest text.length [] := by
  have hord := build_scan_ord hb
  simp only [simplifyConditionalBlocks, hb]
  rw [applySpans_eq (collectF_chain hord)]
  exact applyF_eq_resolveF text [] hord

/-- Witness for `simplify_resolves` at the concrete input
`\iffalse A\else B\fi` (which simplifies to `B`). -/
theorem simplify_resolves_witness :
    simplifyConditionalBlocks "\\iffalse A\\else B\\fi".toList []
      = resolveF "\\iffalse A\\else B\\fi".toList 0
          (.cons (.node .ffalse 0 8 .nil (some (10, 15)) .nil 17 20) .nil)
          "\\iffalse A\\else B\\fi".toList.length [] :=
  simplify_resolves "\\iffalse A\\else B\\fi".toList []
    (.cons (.node .ffalse 0 8 .nil (some (10, 15)) .nil 17 20) .nil)
    rfl (by decide)

/-- C1 counterexample: on `\iftrue\iffalse X\fi\fi` the code returns
`\iffalse X\fi` (the nested resolvable conditional inside the kept branch of a
resolved-true block without `\else` is *not* resolved), whereas manually
pre-resolving every conditional would give the empty text. -/
theorem simplify_no_recursion_in_iftrue :
    simplifyConditionalBlocks "\\iftrue\\iffalse X\\fi\\fi".toList []
      = "\\iffalse X\\fi".toList
    ∧ "\\iffalse X\\fi".toList ≠ ([] : List Char) := by
  exact ⟨by decide, by decide⟩

/-- C2: on any text whose conditional-token stream is malformed (unmatched
`\else`, duplicate `\else`, unmatched `\fi`, or a conditional still open at the
end of the stream), `_simplify_conditional_blocks` returns the original text
unchanged. -/
theorem simplify_malformed (text : List Char) (exc : List (List Char))
    (err : CErr)
    (hb : build (defaultExceptions ++ exc) (scanTokens text) [] .nil = .error err) :
    simplifyConditionalBlocks text exc = text := by
  simp [simplifyConditionalBlocks, hb]

/-- Witness for `simplify_malformed`: an unmatched `\fi` aborts and the text
survives unchanged. -/
theorem simplify_malformed_witness :
    build (defaultExceptions ++ []) (scanTokens "A\\fi B".toList) [] .nil
      = .error .unmatchedFi
    ∧ simplifyConditionalBlocks "A\\fi B".toList [] = "A\\fi B".toList :=
  ⟨rfl, simplify_malformed "A\\fi B".toList [] .unmatchedFi rfl⟩

/-- C10: the deletion spans collected from a successfully built conditional
tree form a chain: every span is nonempty (`s < e`), spans appear in strictly
increasing order, each span starts no earlier than the previous span ends, and
all spans lie within the text; consequently the right-to-left application of
the spans (each extended by at most one following whitespace character) equals
the region-based resolution `applyFromT`, i.e. the offsets of spans not yet
applied stay valid. -/
theorem collected_spans_ordered (text : List Char) (exc : List (List Char))
    (forest : CForest)
    (hb : build (defaultExceptions ++ exc) (scanTokens text) [] .nil = .ok forest) :
    SpanChain 0 text.length (collectF forest)
    ∧ applySpans text (collectF forest)
        = applyFromT text (collectF forest) 0 text.length [] := by
  have hord := build_scan_ord hb
  have hchain := collectF_chain hord
  exact ⟨hchain, applySpans_eq hchain⟩

/-- Witness for `collected_spans_ordered` at a concrete nested input. -/
theorem collected_spans_ordered_witness :
    SpanChain 0 "\\iffalse\\iftrue A\\fi\\fi".toList.length
        (collectF (.cons (.node .ffalse 0 8 (.cons (.node .ttrue 8 15 .nil none .nil 17 20) .nil) none .nil 20 23) .nil))
    ∧ applySpans "\\iffalse\\iftrue A\\fi\\fi".toList
        (collectF (.cons (.node .ffalse 0 8 (.cons (.node .ttrue 8 15 .nil none .nil 17 20) .nil) none .nil 20 23) .nil))
      = applyFromT "\\iffalse\\iftrue A\\fi\\fi".toList
          (collectF (.cons (.node .ffalse 0 8 (.cons (.node .ttrue 8 15 .nil none .nil 17 20) .nil) none .nil 20 23) .nil))
          0 "\\iffalse\\iftrue A\\fi\\fi".toList.length [] :=
  collected_spans_ordered "\\iffalse\\iftrue A\\fi\\fi".toList []
    (.cons (.node .ffalse 0 8 (.cons (.node .ttrue 8 15 .nil none .nil 17 20) .nil) none .nil 20 23) .nil)
    rfl

/-! ## `_remove_comments_inline` -/

def aiLit : List Char := "auto-ignore".toList

/-- Match of the marker `%\s*auto-ignore` (group 1 of the auto-ignore pattern)
at the head of `s`; returns its length. -/
def matchAIAt : List Char → Option Nat
  | '%' :: rest =>
      let w := rest.takeWhile isSpaceChar
      if aiLit.isPrefixOf (rest.drop w.length) then some (1 + w.length + 11)
      else none
  | _ => none

/-- `regex.search` for the auto-ignore pattern. -/
def hasAI : List Char → Bool
  | [] => false
  | c :: rest => (matchAIAt (c :: rest)).isSome || hasAI rest

/-- Skip the `.*` part of a match: everything up to (excluding) the next
newline. -/
def dropToNL : List Char → List Char
  | [] => []
  | c :: r => if c = '\n' then c :: r else dropToNL r

/-- `regex.sub(r'(%\s*auto-ignore).*', r'\1', s)`: every match replaced by its
first group.  Fuel `s.length` is sufficient since every step consumes at least
one character. -/
def subAI : Nat → List Char → List Char
  | 0, s => s
  | fuel + 1, s =>
    match s with
    | [] => []
    | c :: rest =>
      match matchAIAt (c :: rest) with
      | some k => (c :: rest).take k ++ subAI fuel (dropToNL ((c :: rest).drop k))
      | none => c :: subAI fuel rest

/-- `text.lstrip(' ').lstrip('\t').startswith('%')`. -/
def fullCommentLine (s : List Char) : Bool :=
  match (s.dropWhile (· = ' ')).dropWhile (· = '\t') with
  | '%' :: _ => true
  | _ => false

def urlLit : List Char := "\\url\x7b".toList

/-- `[^{}]`. -/
def nonBrace (c : Char) : Bool := !(c = '{' || c = '}')

/-- Match of the url pattern `\url\{(?>[^{}]|(?R))*\}` at the head of `s`,
returning the match length.  The recursive alternative `(?R)` can never
succeed (each atomic repetition first consumes any non-brace character, and at
a brace the recursion would require a backslash), so the pattern is equivalent
to `\url\{[^{}]*\}`. -/
def matchUrlAt (s : List Char) : Option Nat :=
  if urlLit.isPrefixOf s then
    let rest := s.drop 5
    let run := rest.takeWhile nonBrace
    match rest.drop run.length with
    | '}' :: _ => some (5 + run.length + 1)
    | _ => none
  else none

/-- Leftmost url match in `s`: the text before it, the match, and the rest. -/
def findUrl : List Char → Option (List Char × List Char × List Char)
  | [] => none
  | c :: r =>
    match matchUrlAt (c :: r) with
    | some k => some ([], (c :: r).take k, (c :: r).drop k)
    | none =>
      match findUrl r with
      | some (g, m, rest) => some (c :: g, m, rest)
      | none => none

/-- `regex.split` with the captured url pattern: non-matching and matching
segments alternate, beginning and ending with a (possibly empty) non-matching
segment. -/
def splitUrl : Nat → List Char → List (List Char)
  | 0, s => [s]
  | fuel + 1, s =>
    match findUrl s with
    | none => [s]
    | some (g, m, rest) => g :: m :: splitUrl fuel rest

/-- `regex.search(r'(?<!\\)%', s)`: `match.end()` of the first `%` not
directly preceded by a backslash (`prev` is the previous character). -/
def firstPct : Option Char → List Char → Nat → Option Nat
  | prev, c :: r, i =>
      if c = '%' ∧ prev ≠ some '\\' then some (i + 1)
      else firstPct (some c) r (i + 1)
  | _, [], _ => none

/-- `remove_comments(segment)` of the source: the processed segment and
whether a comment was found. -/
def removeComments (seg : List Char) : List Char × Bool :=
  if (match seg.dropWhile isSpaceChar with | '%' :: _ => true | _ => false) then
    ([], true)
  else
    match firstPct none seg 0 with
    | some e => (seg.take e ++ ['\n'], true)
    | none => (seg, false)

/-- The per-segment loop of the source: url segments pass unchanged; the first
non-url segment containing a comment is processed and all later segments are
dropped. -/
def processSegs : List (List Char) → List (List Char)
  | [] => []
  | s :: rest =>
    if (matchUrlAt s).isSome then s :: processSegs rest
    else
      match removeComments s with
      | (s2, true) => [s2]
      | (s2, false) => s2 :: processSegs rest

def joinAll : List (List Char) → List Char
  | [] => []
  | s :: rest => s ++ joinAll rest

/-- Append a final newline unless the text already ends with `'\n'` or with
the two characters `\` `n`. -/
def padNL (s : List Char) : List Char :=
  match s.reverse with
  | '\n' :: _ => s
  | 'n' :: '\\' :: _ => s
  | _ => s ++ ['\n']

/-- Shallow embedding of `_remove_comments_inline`. -/
def removeCommentsInline (text : List Char) : List Char :=
  if hasAI text then subAI text.length text
  else if fullCommentLine text then []
  else padNL (joinAll (processSegs (splitUrl text.length text)))

/-! ### Utility lemmas on `takeWhile`/`dropWhile` -/

theorem takeWhile_append_drop (p : Char → Bool) (l : List Char) :
    l.takeWhile p ++ l.drop (l.takeWhile p).length = l := by
  induction l with
  | nil => rfl
  | cons a l ih =>
    rw [List.takeWhile_cons]
    split
    · simpa using ih
    · rfl

theorem mem_takeWhile_pred {p : Char → Bool} {l : List Char} {a : Char}
    (h : a ∈ l.takeWhile p) : p a = true := by
  induction l with
  | nil => simp [List.takeWhile] at h
  | cons b l ih =>
    rw [List.takeWhile_cons] at h
    by_cases hb : p b
    · rw [if_pos hb] at h
      rcases List.mem_cons.mp h with h1 | h1
      · subst h1; exact hb
      · exact ih h1
    · rw [if_neg hb] at h
      simp at h

theorem drop_takeWhile_head (p : Char → Bool) (l : List Char) :
    l.drop (l.takeWhile p).length = []
    ∨ ∃ d r, l.drop (l.takeWhile p).length = d :: r ∧ p d = false := by
  induction l with
  | nil => exact Or.inl rfl
  | cons a l ih =>
    rw [List.takeWhile_cons]
    by_cases ha : p a
    · rw [if_pos ha]
      simpa using ih
    · rw [if_neg ha]
      refine Or.inr ⟨a, l, ?_, by simpa using ha⟩
      simp

/-- `takeWhile` over an all-true block followed by a failing head. -/
theorem takeWhile_ws_block {p : Char → Bool} {w l : List Char}
    (hw : ∀ c ∈ w, p c = true)
    (hl : l = [] ∨ ∃ d r, l = d :: r ∧ p d = false) :
    (w ++ l).takeWhile p = w ∧ (w ++ l).drop w.length = l := by
  constructor
  · induction w with
    | nil =>
      rcases hl with h | ⟨d, r, h, hd⟩
      · subst h; rfl
      · subst h
        simp [List.takeWhile_cons, hd]
    | cons a w ih =>
      have ha : p a = true := hw a (by simp)
      rw [List.cons_append, List.takeWhile_cons, if_pos ha]
      rw [ih (fun c hc => hw c (by simp [hc]))]
  · rw [List.drop_append_eq_append_drop]
    simp

/-! ### Lemmas on the auto-ignore substitution -/

theorem aiLit_len : aiLit.length = 11 := by decide

theorem matchAIAt_not_pct {c : Char} (l : List Char) (h : c ≠ '%') :
    matchAIAt (c :: l) = none := by
  unfold matchAIAt
  split
  · rename_i heq
    exact absurd (List.cons.inj heq).1 h
  · rfl

theorem matchAIAt_marker (ws rest2 : List Char)
    (hws : ∀ c ∈ ws, isSpaceChar c = true) :
    matchAIAt ('%' :: (ws ++ (aiLit ++ rest2))) = some (1 + ws.length + 11) := by
  have hblock := takeWhile_ws_block (p := isSpaceChar) (w := ws)
      (l := aiLit ++ rest2) hws
      (Or.inr ⟨'a', "uto-ignore".toList ++ rest2, by simp [aiLit], by decide⟩)
  have hpre : aiLit.isPrefixOf (aiLit ++ rest2) = true := by
    rw [List.isPrefixOf_iff_prefix]
    exact List.prefix_append _ _
  show (let w := (ws ++ (aiLit ++ rest2)).takeWhile isSpaceChar
    if aiLit.isPrefixOf ((ws ++ (aiLit ++ rest2)).drop w.length) then
      some (1 + w.length + 11) else none) = some (1 + ws.length + 11)
  simp only [hblock.1, hblock.2, hpre, if_true]

theorem matchAIAt_some_shape {x : List Char} {k : Nat}
    (h : matchAIAt x = some k) :
    ∃ ws rest2, x = '%' :: (ws ++ (aiLit ++ rest2))
      ∧ (∀ c ∈ ws, isSpaceChar c = true) ∧ k = 1 + ws.length + 11 := by
  cases x with
  | nil => exact absurd h (by simp [matchAIAt])
  | cons c rest =>
    by_cases hc : c = '%'
    · subst hc
      have h' : (if aiLit.isPrefixOf
            (rest.drop (rest.takeWhile isSpaceChar).length) then
          some (1 + (rest.takeWhile isSpaceChar).length + 11) else none) = some k := h
      split at h'
      · rename_i hpre
        simp only [Option.some.injEq] at h'
        rw [List.isPrefixOf_iff_prefix] at hpre
        obtain ⟨t, ht⟩ := hpre
        refine ⟨rest.takeWhile isSpaceChar, t, ?_, ?_, by omega⟩
        · have hsplit := takeWhile_append_drop isSpaceChar rest
          rw [← ht] at hsplit
          rw [hsplit]
        · intro c hc
          exact mem_takeWhile_pred hc
      · exact absurd h' (by simp)
    · rw [matchAIAt_not_pct rest hc] at h
      exact absurd h (by simp)

theorem hasAI_cons (c : Char) (l : List Char) :
    hasAI (c :: l) = ((matchAIAt (c :: l)).isSome || hasAI l) := rfl

theorem hasAI_of_suffix {s : List Char} {k : Nat} (a : List Char)
    (h : matchAIAt s = some k) : hasAI (a ++ s) = true := by
  induction a with
  | nil =>
    obtain ⟨ws, rest2, rfl, -, -⟩ := matchAIAt_some_shape h
    rw [List.nil_append, hasAI_cons, h]
    simp
  | cons c a ih =>
    rw [List.cons_append, hasAI_cons, ih]
    simp

theorem matchAIAt_pct (rest : List Char) :
    matchAIAt ('%' :: rest)
      = (if aiLit.isPrefixOf (rest.drop (rest.takeWhile isSpaceChar).length) then
          some (1 + (rest.takeWhile isSpaceChar).length + 11) else none) := rfl

theorem subAI_zero (s : List Char) : subAI 0 s = s := rfl

theorem subAI_nil (fuel : Nat) : subAI fuel [] = [] := by
  cases fuel <;> rfl

theorem subAI_cons_none {c : Char} {rest : List Char} {fuel : Nat}
    (h : matchAIAt (c :: rest) = none) :
    subAI (fuel + 1) (c :: rest) = c :: subAI fuel rest := by
  simp [subAI, h]

theorem subAI_cons_some {c : Char} {rest : List Char} {fuel k : Nat}
    (h : matchAIAt (c :: rest) = some k) :
    subAI (fuel + 1) (c :: rest)
      = (c :: rest).take k ++ subAI fuel (dropToNL ((c :: rest).drop k)) := by
  simp [subAI, h]

theorem subAI_pass : ∀ (w r2 : List Char) (fuel : Nat),
    (∀ c ∈ w, c ≠ '%') → w.length + r2.length ≤ fuel →
    subAI fuel (w ++ r2) = w ++ subAI (fuel - w.length) r2 := by
  intro w
  induction w with
  | nil =>
    intro r2 fuel _ _
    simp
  | cons c w ih =>
    intro r2 fuel hw h
    cases fuel with
    | zero => simp [List.length_cons] at h
    | succ f =>
      rw [List.cons_append, subAI_cons_none (matchAIAt_not_pct _ (hw c (by simp)))]
      rw [ih r2 f (fun d hd => hw d (by simp [hd]))
        (by simp only [List.length_cons] at h; omega)]
      have harith : f + 1 - (c :: w).length = f - w.length := by
        simp only [List.length_cons]
        omega
      rw [harith]
      rfl

theorem subAI_head (d : Char) (r : List Char) (fuel : Nat) :
    ∃ r', subAI fuel (d :: r) = d :: r' := by
  cases fuel with
  | zero => exact ⟨r, rfl⟩
  | succ f =>
    cases hm : matchAIAt (d :: r) with
    | none => exact ⟨subAI f r, subAI_cons_none hm⟩
    | some k =>
      obtain ⟨ws, rest2, hx, -, hk⟩ := matchAIAt_some_shape hm
      refine ⟨(r.take (k - 1)) ++ subAI f (dropToNL ((d :: r).drop k)), ?_⟩
      rw [subAI_cons_some hm]
      have : (d :: r).take k = d :: r.take (k - 1) := by
        cases k with
        | zero => omega
        | succ k' => simp
      rw [this]
      simp

theorem isPrefixOf_subAI : ∀ (r lit : List Char) (fuel : Nat),
    (∀ c ∈ lit, c ≠ '%') → lit.isPrefixOf (subAI fuel r) = true →
    lit.isPrefixOf r = true := by
  intro r
  induction r with
  | nil =>
    intro lit fuel _ h
    rwa [subAI_nil] at h
  | cons d r' ih =>
    intro lit fuel hlit h
    cases fuel with
    | zero => rwa [subAI_zero] at h
    | succ f =>
      cases lit with
      | nil => rfl
      | cons a lit' =>
        have ha : a ≠ '%' := hlit a (by simp)
        cases hm : matchAIAt (d :: r') with
        | some k =>
          rw [subAI_cons_some hm] at h
          obtain ⟨ws, rest2, hx, -, hk⟩ := matchAIAt_some_shape hm
          have hd : d = '%' := (List.cons.inj hx).1
          have htk : (d :: r').take k = d :: r'.take (k - 1) := by
            cases k with
            | zero => omega
            | succ k' => simp
          rw [htk] at h
          simp only [List.cons_append, List.isPrefixOf, Bool.and_eq_true,
            beq_iff_eq] at h
          rw [hd] at h
          exact absurd h.1 ha
        | none =>
          rw [subAI_cons_none hm] at h
          simp only [List.isPrefixOf] at h ⊢
          rw [Bool.and_eq_true] at h ⊢
          exact ⟨h.1, ih lit' f (fun c hc => hlit c (by simp [hc])) h.2⟩

theorem dropToNL_shape (l : List Char) :
    dropToNL l = [] ∨ ∃ l', dropToNL l = '\n' :: l' := by
  induction l with
  | nil => exact Or.inl rfl
  | cons c r ih =>
    by_cases hc : c = '\n'
    · subst hc
      exact Or.inr ⟨r, by simp [dropToNL]⟩
    · have : dropToNL (c :: r) = dropToNL r := by
        simp [dropToNL, hc]
      rw [this]
      exact ih

theorem dropToNL_fix {l : List Char}
    (h : l = [] ∨ ∃ l', l = '\n' :: l') : dropToNL l = l := by
  rcases h with h | ⟨l', h⟩ <;> subst h <;> simp [dropToNL]

theorem dropToNL_len (l : List Char) : (dropToNL l).length ≤ l.length := by
  induction l with
  | nil => simp [dropToNL]
  | cons c r ih =>
    by_cases hc : c = '\n'
    · subst hc; simp [dropToNL]
    · have : dropToNL (c :: r) = dropToNL r := by simp [dropToNL, hc]
      rw [this]
      simp only [List.length_cons]
      omega

theorem dropToNL_nil_of {l : List Char} (h : ∀ c ∈ l, c ≠ '\n') :
    dropToNL l = [] := by
  induction l with
  | nil => rfl
  | cons c r ih =>
    have : dropToNL (c :: r) = dropToNL r := by
      simp [dropToNL, h c (by simp)]
    rw [this]
    exact ih (fun d hd => h d (by simp [hd]))

theorem takeWhile_subAI (rest : List Char) (fuel : Nat)
    (hfuel : rest.length ≤ fuel) :
    (subAI fuel rest).takeWhile isSpaceChar = rest.takeWhile isSpaceChar
    ∧ (subAI fuel rest).drop (rest.takeWhile isSpaceChar).length
        = subAI (fuel - (rest.takeWhile isSpaceChar).length)
            (rest.drop (rest.takeWhile isSpaceChar).length) := by
  have hsplit := takeWhile_append_drop isSpaceChar rest
  have hwlen := takeWhile_length_le isSpaceChar rest
  have hwnp : ∀ c ∈ rest.takeWhile isSpaceChar, c ≠ '%' := by
    intro c hc hc2
    have := mem_takeWhile_pred hc
    subst hc2
    exact absurd this (by decide)
  have hpass := subAI_pass (rest.takeWhile isSpaceChar)
    (rest.drop (rest.takeWhile isSpaceChar).length) fuel hwnp
    (by
      have : (rest.takeWhile isSpaceChar).length
          + (rest.drop (rest.takeWhile isSpaceChar).length).length = rest.length := by
        simp only [List.length_drop]
        omega
      omega)
  rw [hsplit] at hpass
  have hhead : subAI (fuel - (rest.takeWhile isSpaceChar).length)
        (rest.drop (rest.takeWhile isSpaceChar).length) = []
      ∨ ∃ d r, subAI (fuel - (rest.takeWhile isSpaceChar).length)
          (rest.drop (rest.takeWhile isSpaceChar).length) = d :: r
        ∧ isSpaceChar d = false := by
    rcases drop_takeWhile_head isSpaceChar rest with h | ⟨d, r, h, hd⟩
    · rw [h, subAI_nil]
      exact Or.inl rfl
    · rw [h]
      obtain ⟨r', hr'⟩ := subAI_head d r (fuel - (rest.takeWhile isSpaceChar).length)
      exact Or.inr ⟨d, r', hr', hd⟩
  have hblock := takeWhile_ws_block (p := isSpaceChar)
    (w := rest.takeWhile isSpaceChar)
    (l := subAI (fuel - (rest.takeWhile isSpaceChar).length)
      (rest.drop (rest.takeWhile isSpaceChar).length))
    (fun c hc => mem_takeWhile_pred hc) hhead
  rw [hpass]
  exact hblock

theorem matchAIAt_none_sub {c : Char} {rest : List Char} {f : Nat}
    (hf : rest.length ≤ f)
    (hn : matchAIAt (c :: rest) = none) :
    matchAIAt (c :: subAI f rest) = none := by
  by_cases hc : c = '%'
  · subst hc
    have key := takeWhile_subAI rest f hf
    rw [matchAIAt_pct] at hn ⊢
    rw [key.1, key.2]
    cases hp : aiLit.isPrefixOf
        (subAI (f - (rest.takeWhile isSpaceChar).length)
          (rest.drop (rest.takeWhile isSpaceChar).length)) with
    | false => simp [hp]
    | true =>
      have := isPrefixOf_subAI _ aiLit _
        (by intro x hx; revert x; decide) hp
      rw [this] at hn
      simp at hn
  · exact matchAIAt_not_pct _ hc

theorem marker_take_drop (ws rest2 : List Char) :
    ('%' :: (ws ++ (aiLit ++ rest2))).take (1 + ws.length + 11)
        = '%' :: (ws ++ aiLit)
    ∧ ('%' :: (ws ++ (aiLit ++ rest2))).drop (1 + ws.length + 11) = rest2 := by
  have h1 : ('%' :: (ws ++ (aiLit ++ rest2)))
      = ('%' :: (ws ++ aiLit)) ++ rest2 := by
    simp
  have hlen : ('%' :: (ws ++ aiLit)).length = 1 + ws.length + 11 := by
    simp only [List.length_cons, List.length_append, aiLit_len]
    omega
  constructor
  · rw [h1, List.take_append_eq_append_take, hlen, Nat.sub_self, List.take_zero,
      List.append_nil, ← hlen, List.take_length]
  · rw [h1, List.drop_append_eq_append_drop, hlen, Nat.sub_self, List.drop_zero,
      ← hlen, List.drop_length, List.nil_append]

theorem subAI_idem : ∀ (n : Nat) (x : List Char), x.length ≤ n →
    ∀ (fuel fuel' : Nat), x.length ≤ fuel → (subAI fuel x).length ≤ fuel' →
    subAI fuel' (subAI fuel x) = subAI fuel x := by
  intro n
  induction n with
  | zero =>
    intro x hx fuel fuel' _ _
    have : x = [] := List.length_eq_zero.mp (by omega)
    subst this
    rw [subAI_nil, subAI_nil]
  | succ n ih =>
    intro x hx fuel fuel' hfuel hfuel'
    cases x with
    | nil => rw [subAI_nil, subAI_nil]
    | cons c rest =>
      cases fuel with
      | zero => simp at hfuel
      | succ f =>
        have hrf : rest.length ≤ f := by
          simp only [List.length_cons] at hfuel
          omega
        cases hm : matchAIAt (c :: rest) with
        | none =>
          rw [subAI_cons_none hm] at hfuel' ⊢
          have hm2 := matchAIAt_none_sub hrf hm
          cases fuel' with
          | zero => simp at hfuel'
          | succ f' =>
            rw [subAI_cons_none hm2]
            congr 1
            refine ih rest ?_ f f' hrf ?_
            · simp only [List.length_cons] at hx
              omega
            · simp only [List.length_cons] at hfuel'
              omega
        | some k =>
          rw [subAI_cons_some hm] at hfuel' ⊢
          obtain ⟨ws, rest2, hx2, hws, hk⟩ := matchAIAt_some_shape hm
          rw [hx2, hk] at hfuel' ⊢
          obtain ⟨htk, hdk⟩ := marker_take_drop ws rest2
          rw [htk, hdk] at hfuel' ⊢
          set z := dropToNL rest2 with hz
          have hy2shape : subAI f z = []
              ∨ ∃ z2, subAI f z = '\n' :: z2 := by
            rcases dropToNL_shape rest2 with h0 | ⟨l', h0⟩
            · rw [← hz] at h0
              rw [h0, subAI_nil]
              exact Or.inl rfl
            · rw [← hz] at h0
              rw [h0]
              obtain ⟨r', hr'⟩ := subAI_head '\n' l' f
              exact Or.inr ⟨r', hr'⟩
          have hmark : matchAIAt (('%' :: (ws ++ aiLit)) ++ subAI f z)
              = some (1 + ws.length + 11) := by
            have : ('%' :: (ws ++ aiLit)) ++ subAI f z
                = '%' :: (ws ++ (aiLit ++ subAI f z)) := by simp
            rw [this]
            exact matchAIAt_marker ws (subAI f z) hws
          have hlenz : z.length ≤ rest2.length := by
            rw [hz]
            exact dropToNL_len rest2
          have hlenrest2 : rest2.length ≤ rest.length := by
            have : rest = ws ++ (aiLit ++ rest2) := (List.cons.inj hx2).2
            rw [this]
            simp only [List.length_append]
            omega
          have hylen : (('%' :: (ws ++ aiLit)) ++ subAI f z).length
              = (1 + ws.length + 11) + (subAI f z).length := by
            simp only [List.length_append, List.length_cons, aiLit_len]
            omega
          cases fuel' with
          | zero =>
            rw [hylen] at hfuel'
            omega
          | succ f' =>
            have hassoc : ('%' :: (ws ++ aiLit)) ++ subAI f z
                = '%' :: (ws ++ (aiLit ++ subAI f z)) := by simp
            rw [hassoc, subAI_cons_some (matchAIAt_marker ws (subAI f z) hws)]
            obtain ⟨htk2, hdk2⟩ := marker_take_drop ws (subAI f z)
            rw [htk2, hdk2, dropToNL_fix hy2shape]
            rw [ih z ?_ f f' ?_ ?_]
            · simp
            · simp only [List.length_cons] at hx
              omega
            · omega
            · rw [hylen] at hfuel'
              omega


theorem hasAI_subAI : ∀ (x : List Char) (fuel : Nat), x.length ≤ fuel →
    hasAI x = true → hasAI (subAI fuel x) = true := by
  intro x
  induction x with
  | nil =>
    intro fuel _ h
    simp [hasAI] at h
  | cons c rest ih =>
    intro fuel hfuel h
    cases fuel with
    | zero => exact h
    | succ f =>
      cases hm : matchAIAt (c :: rest) with
      | some k =>
        rw [subAI_cons_some hm]
        obtain ⟨ws, rest2, hx2, hws, hk⟩ := matchAIAt_some_shape hm
        rw [hx2, hk, (marker_take_drop ws rest2).1, (marker_take_drop ws rest2).2]
        have hassoc : ('%' :: (ws ++ aiLit)) ++ subAI f (dropToNL rest2)
            = '%' :: (ws ++ (aiLit ++ subAI f (dropToNL rest2))) := by simp
        rw [hassoc, hasAI_cons, matchAIAt_marker ws _ hws]
        simp
      | none =>
        rw [subAI_cons_none hm]
        rw [hasAI_cons, hm] at h
        simp only [Option.isSome_none, Bool.false_or] at h
        rw [hasAI_cons]
        rw [ih f (by simp only [List.length_cons] at hfuel; omega) h]
        simp

/-- C4 counterexample: on a line containing the auto-ignore marker, text after
the marker is deleted, so the returned line differs from the input line. -/
theorem autoIgnore_deletes_rest :
    removeCommentsInline "x % auto-ignore KEEP".toList = "x % auto-ignore".toList
    ∧ "x % auto-ignore".toList ≠ "x % auto-ignore KEEP".toList :=
  ⟨by decide, by decide⟩

/-- C4 (amended): on a line containing the auto-ignore marker (a `%` followed
by optional whitespace and `auto-ignore`), the marker and everything before it
are preserved verbatim, while everything after the marker up to the end of the
line is deleted. -/
theorem autoIgnore_amended (pre ws post : List Char)
    (hpre : ∀ c ∈ pre, c ≠ '%') (hws : ∀ c ∈ ws, isSpaceChar c = true)
    (hpost : ∀ c ∈ post, c ≠ '\n') :
    removeCommentsInline (pre ++ '%' :: (ws ++ (aiLit ++ post)))
      = pre ++ '%' :: (ws ++ aiLit) := by
  have hmark := matchAIAt_marker ws post hws
  have hhas : hasAI (pre ++ '%' :: (ws ++ (aiLit ++ post))) = true :=
    hasAI_of_suffix pre hmark
  have hlen : (pre ++ '%' :: (ws ++ (aiLit ++ post))).length
      = pre.length + (1 + ws.length + 11 + post.length) := by
    simp only [List.length_append, List.length_cons, aiLit_len]
    omega
  unfold removeCommentsInline
  rw [hhas]
  simp only [if_true]
  rw [subAI_pass pre ('%' :: (ws ++ (aiLit ++ post))) _ hpre
    (by rw [hlen]; simp only [List.length_cons, List.length_append, aiLit_len]; omega)]
  have harith : (pre ++ '%' :: (ws ++ (aiLit ++ post))).length - pre.length
      = (ws.length + 11 + post.length) + 1 := by
    rw [hlen]
    omega
  rw [harith, subAI_cons_some hmark, (marker_take_drop ws post).1,
    (marker_take_drop ws post).2, dropToNL_nil_of hpost, subAI_nil,
    List.append_nil]

/-- Witness for `autoIgnore_amended` at the concrete line
`x % auto-ignore KEEP`. -/
theorem autoIgnore_amended_witness :
    removeCommentsInline ("x ".toList ++ '%' :: ([' '] ++ (aiLit ++ " KEEP".toList)))
      = "x ".toList ++ '%' :: ([' '] ++ aiLit) :=
  autoIgnore_amended "x ".toList [' '] " KEEP".toList
    (by decide) (by decide) (by decide)

/-- Idempotence of `_remove_comments_inline` on lines containing the
auto-ignore marker. -/
theorem rci_idem_AI (x : List Char) (h : hasAI x = true) :
    removeCommentsInline (removeCommentsInline x) = removeCommentsInline x := by
  have h1 : removeCommentsInline x = subAI x.length x := by
    unfold removeCommentsInline
    rw [h]
    simp
  have h2 : hasAI (subAI x.length x) = true :=
    hasAI_subAI x x.length (le_refl _) h
  rw [h1]
  unfold removeCommentsInline
  rw [h2]
  simp only [if_true]
  exact subAI_idem x.length x (le_refl _) x.length (subAI x.length x).length
    (le_refl _) (le_refl _)

/-! ### Lemmas on the url pattern match -/

/-- The shape of a url match: `\url{`, non-brace characters, `}`. -/
def UrlShape (m : List Char) : Prop :=
  ∃ nb, m = urlLit ++ (nb ++ ['}']) ∧ ∀ c ∈ nb, nonBrace c = true

theorem takeWhile_append_stop {p : Char → Bool} {u : List Char} (v : List Char)
    (hstop : ∃ c ∈ u, p c = false) :
    (u ++ v).takeWhile p = u.takeWhile p := by
  induction u with
  | nil =>
    obtain ⟨c, hc, -⟩ := hstop
    simp at hc
  | cons d u' ih =>
    rw [List.cons_append, List.takeWhile_cons, List.takeWhile_cons]
    by_cases hd : p d
    · rw [if_pos hd, if_pos hd]
      obtain ⟨c, hc, hcp⟩ := hstop
      rcases List.mem_cons.mp hc with h1 | h1
      · subst h1
        rw [hd] at hcp
        simp at hcp
      · rw [ih ⟨c, h1, hcp⟩]
    · rw [if_neg hd, if_neg hd]

theorem matchUrl_shape (nb z : List Char) (hnb : ∀ c ∈ nb, nonBrace c = true) :
    matchUrlAt (urlLit ++ (nb ++ ('}' :: z))) = some (5 + nb.length + 1) := by
  have hpre : urlLit.isPrefixOf (urlLit ++ (nb ++ ('}' :: z))) = true := by
    rw [List.isPrefixOf_iff_prefix]
    exact List.prefix_append _ _
  have hdrop : (urlLit ++ (nb ++ ('}' :: z))).drop 5 = nb ++ ('}' :: z) := by
    have : urlLit.length = 5 := by decide
    rw [← this, List.drop_append_eq_append_drop, List.drop_length, Nat.sub_self,
      List.drop_zero, List.nil_append]
  have hblock := takeWhile_ws_block (p := nonBrace) (w := nb) (l := '}' :: z)
    hnb (Or.inr ⟨'}', z, rfl, by decide⟩)
  unfold matchUrlAt
  rw [hpre]
  simp only [if_true, hdrop, hblock.1, hblock.2]

theorem matchUrlAt_some_shape {s : List Char} {k : Nat}
    (h : matchUrlAt s = some k) :
    ∃ nb z, s = urlLit ++ (nb ++ ('}' :: z)) ∧ (∀ c ∈ nb, nonBrace c = true)
      ∧ k = 5 + nb.length + 1 := by
  unfold matchUrlAt at h
  split at h
  · rename_i hpre
    simp only [] at h
    split at h
    · rename_i z heq
      simp only [Option.some.injEq] at h
      rw [List.isPrefixOf_iff_prefix] at hpre
      obtain ⟨t, ht⟩ := hpre
      refine ⟨(s.drop 5).takeWhile nonBrace, z, ?_, ?_, by omega⟩
      · have hsplit := takeWhile_append_drop nonBrace (s.drop 5)
        rw [heq] at hsplit
        have hlen : urlLit.length = 5 := by decide
        have hdrop : s.drop 5 = t := by
          rw [← ht, ← hlen, List.drop_append_eq_append_drop, List.drop_length,
            Nat.sub_self, List.drop_zero, List.nil_append]
        rw [hsplit, hdrop]
        exact ht.symm
      · intro c hc
        exact mem_takeWhile_pred hc
    · exact absurd h (by simp)
  · exact absurd h (by simp)

theorem urlShape_len {m : List Char} (h : UrlShape m) : 6 ≤ m.length := by
  obtain ⟨nb, rfl, -⟩ := h
  simp only [List.length_append, List.length_cons, List.length_nil]
  have : urlLit.length = 5 := by decide
  omega

theorem matchUrl_some_facts {s : List Char} {k : Nat}
    (h : matchUrlAt s = some k) :
    6 ≤ k ∧ k ≤ s.length ∧ s.getD (k - 1) 'x' = '}'
      ∧ s.take k = urlLit ++ ((s.drop 5).takeWhile nonBrace ++ ['}'])
      ∧ UrlShape (s.take k) := by
  obtain ⟨nb, z, rfl, hnb, hk⟩ := matchUrlAt_some_shape h
  have hM : urlLit ++ (nb ++ ('}' :: z)) = (urlLit ++ (nb ++ ['}'])) ++ z := by
    simp
  have hMlen : (urlLit ++ (nb ++ ['}'])).length = k := by
    simp only [List.length_append, List.length_cons, List.length_nil]
    have : urlLit.length = 5 := by decide
    omega
  have htake : (urlLit ++ (nb ++ ('}' :: z))).take k = urlLit ++ (nb ++ ['}']) := by
    rw [hM, List.take_append_eq_append_take, hMlen, Nat.sub_self, List.take_zero,
      List.append_nil, ← hMlen, List.take_length]
  refine ⟨by omega, ?_, ?_, ?_, ?_⟩
  · simp only [List.length_append, List.length_cons]
    have : urlLit.length = 5 := by decide
    omega
  · rw [hM, List.getD_append _ _ _ _ (by omega)]
    have h2 : urlLit ++ (nb ++ ['}']) = (urlLit ++ nb) ++ ['}'] := by simp
    have h2len : (urlLit ++ nb).length = k - 1 := by
      simp only [List.length_append]
      have : urlLit.length = 5 := by decide
      omega
    rw [h2, List.getD_append_right _ _ _ _ (by omega), h2len, Nat.sub_self]
    rfl
  · rw [htake]
    have hnb2 : (urlLit ++ (nb ++ ('}' :: z))).drop 5 = nb ++ ('}' :: z) := by
      have : urlLit.length = 5 := by decide
      rw [← this, List.drop_append_eq_append_drop, List.drop_length, Nat.sub_self,
        List.drop_zero, List.nil_append]
    rw [hnb2]
    rw [(takeWhile_ws_block (p := nonBrace) (w := nb) (l := '}' :: z) hnb
      (Or.inr ⟨'}', z, rfl, by decide⟩)).1]
  · rw [htake]
    exact ⟨nb, rfl, hnb⟩

theorem matchUrl_some_local {w z : List Char} {k : Nat}
    (h : matchUrlAt (w ++ z) = some k) (hk : k ≤ w.length) (z' : List Char) :
    matchUrlAt (w ++ z') = some k := by
  obtain ⟨-, -, -, -, hshape⟩ := matchUrl_some_facts h
  obtain ⟨nb, hM, hnb⟩ := hshape
  have htk : (w ++ z).take k = w.take k := by
    rw [List.take_append_eq_append_take]
    have : k - w.length = 0 := by omega
    rw [this, List.take_zero, List.append_nil]
  rw [htk] at hM
  have hw : w = (urlLit ++ (nb ++ ['}'])) ++ w.drop k := by
    conv_lhs => rw [← List.take_append_drop k w]
    rw [hM]
  have hlen : k = 5 + nb.length + 1 := by
    have := congrArg List.length hM
    simp only [List.length_take, List.length_append, List.length_cons,
      List.length_nil] at this
    have h5 : urlLit.length = 5 := by decide
    rw [h5] at this
    omega
  rw [hw]
  have : (urlLit ++ (nb ++ ['}'])) ++ w.drop k ++ z'
      = urlLit ++ (nb ++ ('}' :: (w.drop k ++ z'))) := by simp
  rw [this, matchUrl_shape nb _ hnb, hlen]

theorem matchUrl_not_bs {c : Char} (l : List Char) (h : c ≠ '\\') :
    matchUrlAt (c :: l) = none := by
  unfold matchUrlAt
  have : urlLit.isPrefixOf (c :: l) = false := by
    cases hcl : urlLit.isPrefixOf (c :: l) with
    | false => rfl
    | true =>
      rw [List.isPrefixOf_iff_prefix] at hcl
      obtain ⟨t, ht⟩ := hcl
      have : c = '\\' := by
        have := (List.cons.inj (by simpa [urlLit] using ht)).1
        exact this.symm
      exact absurd this h
  rw [this]
  simp

theorem getD_mem_of_lt {l : List Char} {i : Nat} (h : i < l.length) (d : Char) :
    l.getD i d ∈ l := by
  induction l generalizing i with
  | nil => simp at h
  | cons a l ih =>
    cases i with
    | zero => simp [List.getD]
    | succ j =>
      have : (a :: l).getD (j + 1) d = l.getD j d := rfl
      rw [this]
      exact List.mem_cons_of_mem a (ih (by simpa using h))

/-- A url match starting before an embedded full url-shaped segment cannot end
after it: the segment's opening brace blocks the non-brace run. -/
theorem matchUrl_bound {b m z : List Char} {k : Nat} (hm : UrlShape m)
    (h : matchUrlAt (b ++ (m ++ z)) = some k) : k ≤ b.length + m.length := by
  obtain ⟨nb, hm2, hnb⟩ := hm
  cases b with
  | nil =>
    rw [List.nil_append] at h
    have : m ++ z = urlLit ++ (nb ++ ('}' :: z)) := by rw [hm2]; simp
    rw [this, matchUrl_shape nb z hnb] at h
    have hk : k = 5 + nb.length + 1 := by
      simpa using h.symm
    have : m.length = 5 + nb.length + 1 := by
      rw [hm2]
      simp only [List.length_append, List.length_cons, List.length_nil]
      have : urlLit.length = 5 := by decide
      omega
    omega
  | cons c b' =>
    obtain ⟨nb', zz, heq, hnb', hk⟩ := matchUrlAt_some_shape h
    by_contra hgt
    have hblen : (c :: b').length = b'.length + 1 := by simp
    have hmlen : 6 ≤ m.length := urlShape_len ⟨nb, hm2, hnb⟩
    have hi1 : ((c :: b') ++ (m ++ z)).getD ((c :: b').length + 4) 'x' = '{' := by
      rw [List.getD_append_right _ _ _ _ (by omega)]
      have : (c :: b').length + 4 - (c :: b').length = 4 := by omega
      rw [this, List.getD_append _ _ _ _ (by omega), hm2,
        List.getD_append _ _ _ _ (by decide)]
      rfl
    have hnblen : (c :: b').length ≤ nb'.length := by omega
    have hi2 : ((c :: b') ++ (m ++ z)).getD ((c :: b').length + 4) 'x'
        = nb'.getD ((c :: b').length - 1) 'x' := by
      rw [heq]
      have h5 : urlLit.length = 5 := by decide
      rw [List.getD_append_right _ _ _ _ (by omega)]
      have : (c :: b').length + 4 - urlLit.length = (c :: b').length - 1 := by
        omega
      rw [this, List.getD_append _ _ _ _ (by omega)]
    have hmem : nb'.getD ((c :: b').length - 1) 'x' ∈ nb' :=
      getD_mem_of_lt (by omega) 'x'
    have := hnb' _ hmem
    rw [← hi2, hi1] at this
    simp [nonBrace] at this

/-- The url match at a position is unaffected by anything after the next
complete url segment. -/
theorem matchUrl_boundary (b m z z' : List Char) (hm : UrlShape m) :
    matchUrlAt (b ++ (m ++ z)) = matchUrlAt (b ++ (m ++ z')) := by
  have key : ∀ w w' : List Char, ∀ k, matchUrlAt (b ++ (m ++ w)) = some k →
      matchUrlAt (b ++ (m ++ w')) = some k := by
    intro w w' k h
    have hb := matchUrl_bound hm h
    have he : b ++ (m ++ w) = (b ++ m) ++ w := by simp
    rw [he] at h
    have := matchUrl_some_local h (by simpa using hb) w'
    simpa using this
  cases h1 : matchUrlAt (b ++ (m ++ z)) with
  | some k => exact (key z z' k h1).symm
  | none =>
    cases h2 : matchUrlAt (b ++ (m ++ z')) with
    | none => rfl
    | some k =>
      rw [key z' z k h2] at h1
      exact absurd h1 (by simp)

theorem matchUrl_last_nl {w : List Char} {k : Nat}
    (h : matchUrlAt (w ++ ['\n']) = some k) : k ≤ w.length := by
  obtain ⟨h6, hlen, hget, -, -⟩ := matchUrl_some_facts h
  by_contra hgt
  have hk : k = w.length + 1 := by
    simp only [List.length_append, List.length_cons, List.length_nil] at hlen
    omega
  rw [List.getD_append_right _ _ _ _ (by omega)] at hget
  have : k - 1 - w.length = 0 := by omega
  rw [this] at hget
  simp at hget

/-! ### Lemmas on `findUrl` and `splitUrl` -/

theorem findUrl_props : ∀ (s g m rest : List Char),
    findUrl s = some (g, m, rest) →
    s = g ++ (m ++ rest) ∧ UrlShape m
      ∧ ∀ a c b, g = a ++ c :: b →
          matchUrlAt (c :: (b ++ (m ++ rest))) = none := by
  intro s
  induction s with
  | nil => intro g m rest h; exact absurd h (by simp [findUrl])
  | cons c r ih =>
    intro g m rest h
    rw [findUrl] at h
    cases hm : matchUrlAt (c :: r) with
    | some k =>
      rw [hm] at h
      simp only [Option.some.injEq, Prod.mk.injEq] at h
      obtain ⟨hg, hmm, hrest⟩ := h
      obtain ⟨h6, hlen, -, -, hshape⟩ := matchUrl_some_facts hm
      subst hg hmm hrest
      refine ⟨by rw [← List.append_assoc, List.nil_append, List.take_append_drop], hshape, ?_⟩
      intro a c0 b hab
      exact absurd hab.symm (by simp)
    | none =>
      rw [hm] at h
      cases hf : findUrl r with
      | none => rw [hf] at h; exact absurd h (by simp)
      | some p =>
        obtain ⟨g', m', rest'⟩ := p
        rw [hf] at h
        simp only [Option.some.injEq, Prod.mk.injEq] at h
        obtain ⟨hg, hmm, hrest⟩ := h
        obtain ⟨hr, hsh, hgap⟩ := ih g' m' rest' hf
        subst hg hmm hrest
        refine ⟨by rw [hr]; simp, hsh, ?_⟩
        intro a c0 b hab
        cases a with
        | nil =>
          simp only [List.nil_append, List.cons.injEq] at hab
          obtain ⟨hc, hb⟩ := hab
          subst hc hb
          rw [← hr]
          exact hm
        | cons d a' =>
          simp only [List.cons_append, List.cons.injEq] at hab
          exact hgap a' c0 b hab.2

theorem findUrl_none_props : ∀ (s : List Char), findUrl s = none →
    ∀ a c b, s = a ++ c :: b → matchUrlAt (c :: b) = none := by
  intro s
  induction s with
  | nil =>
    intro h0 a c b hab
    exact absurd hab (by simp)
  | cons c0 r ih =>
    intro h a c b hab
    rw [findUrl] at h
    cases hm : matchUrlAt (c0 :: r) with
    | some k => rw [hm] at h; exact absurd h (by simp)
    | none =>
      rw [hm] at h
      cases hf : findUrl r with
      | some p => rw [hf] at h; cases p; exact absurd h (by simp)
      | none =>
        cases a with
        | nil =>
          simp only [List.nil_append, List.cons.injEq] at hab
          obtain ⟨hc, hb⟩ := hab
          subst hc hb
          exact hm
        | cons d a' =>
          simp only [List.cons_append, List.cons.injEq] at hab
          exact ih hf a' c b hab.2

theorem findUrl_none_of : ∀ (s : List Char),
    (∀ a c b, s = a ++ c :: b → matchUrlAt (c :: b) = none) →
    findUrl s = none := by
  intro s
  induction s with
  | nil => intro h0; rfl
  | cons c r ih =>
    intro h
    rw [findUrl]
    rw [h [] c r rfl]
    rw [ih (fun a c0 b hab => h (c :: a) c0 b (by rw [hab]; rfl))]

theorem findUrl_of (g m tail : List Char) (hm : UrlShape m)
    (hg : ∀ a c b, g = a ++ c :: b →
        matchUrlAt (c :: (b ++ (m ++ tail))) = none) :
    findUrl (g ++ (m ++ tail)) = some (g, m, tail) := by
  induction g with
  | nil =>
    obtain ⟨nb, hm2, hnb⟩ := hm
    have hshape : m ++ tail = urlLit ++ (nb ++ ('}' :: tail)) := by
      rw [hm2]; simp
    have hmatch : matchUrlAt (m ++ tail) = some m.length := by
      rw [hshape, matchUrl_shape nb tail hnb]
      congr 1
      rw [hm2]
      simp only [List.length_append, List.length_cons, List.length_nil]
      have : urlLit.length = 5 := by decide
      omega
    have hne : ∃ c r, m ++ tail = c :: r := by
      rw [hm2]
      exact ⟨'\\', _, rfl⟩
    obtain ⟨c, r, hcr⟩ := hne
    rw [List.nil_append, hcr, findUrl, ← hcr, hmatch]
    have ht : (m ++ tail).take m.length = m := by
      rw [List.take_append_eq_append_take, Nat.sub_self, List.take_zero,
        List.append_nil, List.take_length]
    have hd : (m ++ tail).drop m.length = tail := by
      rw [List.drop_append_eq_append_drop, Nat.sub_self, List.drop_zero,
        List.drop_length, List.nil_append]
    show some ([], (m ++ tail).take m.length, (m ++ tail).drop m.length)
      = some ([], m, tail)
    rw [ht, hd]
  | cons c g' ih =>
    rw [List.cons_append, findUrl]
    have h1 : matchUrlAt (c :: (g' ++ (m ++ tail))) = none := hg [] c g' rfl
    rw [h1, ih (fun a c0 b hab => hg (c :: a) c0 b (by rw [hab]; rfl))]

/-- The invariant of `splitUrl` output: gaps and complete url segments
alternate, starting and ending with a gap, and no url match starts anywhere
inside a gap (looking across the rest of the text). -/
def SegsOK : List (List Char) → Prop
  | [] => False
  | [g] => ∀ a c b, g = a ++ c :: b → matchUrlAt (c :: b) = none
  | g :: m :: rest =>
    (∀ a c b, g = a ++ c :: b →
        matchUrlAt (c :: (b ++ (m ++ joinAll rest))) = none)
      ∧ UrlShape m ∧ SegsOK rest

theorem joinAll_cons (s : List Char) (rest : List (List Char)) :
    joinAll (s :: rest) = s ++ joinAll rest := rfl

theorem splitUrl_join : ∀ (fuel : Nat) (s : List Char),
    joinAll (splitUrl fuel s) = s := by
  intro fuel
  induction fuel with
  | zero => intro s; simp [splitUrl, joinAll]
  | succ n ih =>
    intro s
    rw [splitUrl]
    cases hf : findUrl s with
    | none => simp [joinAll]
    | some p =>
      obtain ⟨g, m, rest⟩ := p
      obtain ⟨hs, -, -⟩ := findUrl_props s g m rest hf
      rw [joinAll_cons, joinAll_cons, ih rest, ← hs]

theorem splitUrl_ok : ∀ (fuel : Nat) (s : List Char), s.length ≤ fuel →
    SegsOK (splitUrl fuel s) := by
  intro fuel
  induction fuel with
  | zero =>
    intro s hs
    have : s = [] := by
      cases s with
      | nil => rfl
      | cons c r => simp at hs
    subst this
    intro a c b hab
    exact absurd hab (by simp)
  | succ n ih =>
    intro s hs
    rw [splitUrl]
    cases hf : findUrl s with
    | none => exact findUrl_none_props s hf
    | some p =>
      obtain ⟨g, m, rest⟩ := p
      obtain ⟨hseq, hsh, hgap⟩ := findUrl_props s g m rest hf
      have hrlen : rest.length ≤ n := by
        have h6 := urlShape_len hsh
        have := congrArg List.length hseq
        simp only [List.length_append] at this
        omega
      refine ⟨?_, hsh, ih rest hrlen⟩
      intro a c b hab
      rw [splitUrl_join n rest]
      exact hgap a c b hab

theorem splitUrl_recon : ∀ (segs : List (List Char)) (fuel : Nat),
    SegsOK segs → (joinAll segs).length ≤ fuel →
    splitUrl fuel (joinAll segs) = segs
  | [], _, h, _ => h.elim
  | [g], fuel, h, hf => by
    have hnone : findUrl (joinAll [g]) = none := by
      apply findUrl_none_of
      intro a c b hab
      have : g = a ++ c :: b := by
        rw [← hab]
        simp [joinAll]
      exact h a c b this
    cases fuel with
    | zero =>
      simp [splitUrl, joinAll]
    | succ n =>
      rw [splitUrl, hnone]
      simp [joinAll]
  | g :: m :: rest, fuel, h, hf => by
    obtain ⟨hgap, hsh, hrest⟩ := h
    have hjoin : joinAll (g :: m :: rest) = g ++ (m ++ joinAll rest) := rfl
    have hmlen : 6 ≤ m.length := urlShape_len hsh
    cases fuel with
    | zero =>
      rw [hjoin] at hf
      simp only [List.length_append] at hf
      omega
    | succ n =>
      rw [splitUrl, hjoin, findUrl_of g m (joinAll rest) hsh hgap]
      have hn : (joinAll rest).length ≤ n := by
        rw [hjoin] at hf
        simp only [List.length_append] at hf
        omega
      show g :: m :: splitUrl n (joinAll rest) = g :: m :: rest
      rw [splitUrl_recon rest n hrest hn]

/-! ### Lemmas on `firstPct` and `removeComments` -/

theorem firstPct_facts : ∀ (s : List Char) (prev : Option Char) (i e : Nat),
    firstPct prev s i = some e →
    i < e ∧ e ≤ i + s.length ∧ s.getD (e - i - 1) 'x' = '%'
      ∧ ∀ z, firstPct prev (s.take (e - i) ++ z) i = some e := by
  intro s
  induction s with
  | nil => intro prev i e h; exact absurd h (by simp [firstPct])
  | cons c r ih =>
    intro prev i e h
    rw [firstPct] at h
    split at h
    · rename_i hc
      simp only [Option.some.injEq] at h
      subst h
      refine ⟨by omega, by simp, ?_, ?_⟩
      · have : i + 1 - i - 1 = 0 := by omega
        rw [this]
        simp [List.getD, hc.1]
      · intro z
        have h1 : i + 1 - i = 1 := by omega
        rw [h1, List.take_cons, List.take_zero, List.cons_append, firstPct,
          if_pos hc]
        omega
    · rename_i hc
      obtain ⟨h1, h2, h3, h4⟩ := ih (some c) (i + 1) e h
      refine ⟨by omega, by simp; omega, ?_, ?_⟩
      · have : e - i - 1 = (e - (i + 1) - 1) + 1 := by omega
        rw [this]
        have : (c :: r).getD (e - (i + 1) - 1 + 1) 'x' = r.getD (e - (i + 1) - 1) 'x' := rfl
        rw [this]
        exact h3
      · intro z
        have he : e - i = (e - (i + 1)) + 1 := by omega
        rw [he, List.take_cons, List.cons_append, firstPct, if_neg hc]
        · exact h4 z
        · omega

theorem firstPct_none_of : ∀ (z : List Char) (prev : Option Char) (i : Nat),
    (∀ c ∈ z, c ≠ '%') → firstPct prev z i = none := by
  intro z
  induction z with
  | nil => intro prev i h; rfl
  | cons c r ih =>
    intro prev i h
    rw [firstPct]
    have hc : c ≠ '%' := h c (by simp)
    rw [if_neg (by simp [hc])]
    exact ih (some c) (i + 1) (fun d hd => h d (by simp [hd]))

theorem firstPct_none_append : ∀ (s : List Char) (z : List Char)
    (prev : Option Char) (i : Nat),
    firstPct prev s i = none → (∀ c ∈ z, c ≠ '%') →
    firstPct prev (s ++ z) i = none := by
  intro s
  induction s with
  | nil => intro z prev i h hz; exact firstPct_none_of z prev i hz
  | cons c r ih =>
    intro z prev i h hz
    rw [firstPct] at h
    split at h
    · exact absurd h (by simp)
    · rename_i hc
      rw [List.cons_append, firstPct, if_neg hc]
      exact ih z (some c) (i + 1) h hz

theorem dropWhile_block {p : Char → Bool} {w : List Char} {d : Char}
    (l : List Char) (hw : ∀ c ∈ w, p c = true) (hd : p d = false) :
    (w ++ d :: l).dropWhile p = d :: l := by
  induction w with
  | nil => simp [List.dropWhile_cons, hd]
  | cons a w ih =>
    rw [List.cons_append, List.dropWhile_cons, if_pos (hw a (by simp))]
    exact ih (fun c hc => hw c (by simp [hc]))

theorem dropWhile_head_false {p : Char → Bool} : ∀ {l : List Char} {d : Char}
    {r : List Char}, l.dropWhile p = d :: r → p d = false := by
  intro l
  induction l with
  | nil => intro d r h; simp [List.dropWhile] at h
  | cons a l ih =>
    intro d r h
    rw [List.dropWhile_cons] at h
    by_cases ha : p a
    · rw [if_pos ha] at h
      exact ih h
    · rw [if_neg ha] at h
      obtain ⟨h1, -⟩ := List.cons.inj h
      subst h1
      simpa using ha

theorem dropWhile_append_ne_nil {p : Char → Bool} {a : List Char} {d : Char}
    {r : List Char} (b : List Char) (h : a.dropWhile p = d :: r) :
    (a ++ b).dropWhile p = d :: (r ++ b) := by
  have hsplit : a = a.takeWhile p ++ d :: r := by
    conv_lhs => rw [← List.takeWhile_append_dropWhile (p := p) (l := a)]
    rw [h]
  have hd : p d = false := dropWhile_head_false h
  rw [hsplit, List.append_assoc, List.cons_append]
  exact dropWhile_block _ (fun c hc => mem_takeWhile_pred hc) hd

theorem dropWhile_nil_all {p : Char → Bool} : ∀ {l : List Char},
    l.dropWhile p = [] → ∀ c ∈ l, p c = true := by
  intro l
  induction l with
  | nil => intro h c hc; simp at hc
  | cons a r ih =>
    intro h c hc
    rw [List.dropWhile_cons] at h
    by_cases ha : p a
    · rw [if_pos ha] at h
      rcases List.mem_cons.mp hc with h1 | h1
      · subst h1; exact ha
      · exact ih h c h1
    · rw [if_neg ha] at h
      simp at h

theorem dropWhile_append_nil {p : Char → Bool} {a : List Char} (b : List Char)
    (h : a.dropWhile p = []) : (a ++ b).dropWhile p = b.dropWhile p := by
  induction a with
  | nil => rfl
  | cons c a ih =>
    rw [List.dropWhile_cons] at h
    by_cases hc : p c
    · rw [if_pos hc] at h
      rw [List.cons_append, List.dropWhile_cons, if_pos hc]
      exact ih h
    · rw [if_neg hc] at h
      simp at h

theorem pctCheck_cons_false {d : Char} (X : List Char) (hd : d ≠ '%') :
    (match d :: X with | '%' :: _ => true | _ => false) = false := by
  split
  · rename_i heq
    obtain ⟨h1, -⟩ := List.cons.inj heq
    exact absurd h1 hd
  · rfl

theorem removeComments_false {g g2 : List Char}
    (h : removeComments g = (g2, false)) :
    g2 = g ∧ firstPct none g 0 = none
      ∧ (match g.dropWhile isSpaceChar with
          | '%' :: _ => true | _ => false) = false := by
  unfold removeComments at h
  split at h
  · rename_i hchk
    simp at h
  · rename_i hchk
    split at h
    · simp at h
    · rename_i hfp
      obtain ⟨h1, -⟩ := Prod.mk.inj h
      exact ⟨h1.symm, hfp, by simpa using hchk⟩

theorem removeComments_nl : removeComments ['\n'] = (['\n'], false) := by decide

/-- The lstrip-check stays false when a segment is truncated at its first
comment character (with a newline appended). -/
theorem pctCheck_trunc_false {g : List Char} {e : Nat}
    (hchk : (match g.dropWhile isSpaceChar with
              | '%' :: _ => true | _ => false) = false)
    (h1 : 0 < e) (h2 : e ≤ g.length) (h3 : g.getD (e - 1) 'x' = '%') :
    (match (g.take e ++ ['\n']).dropWhile isSpaceChar with
      | '%' :: _ => true | _ => false) = false := by
  cases hdw : g.dropWhile isSpaceChar with
  | nil =>
    have hall := dropWhile_nil_all hdw
    have hmem : g.getD (e - 1) 'x' ∈ g := getD_mem_of_lt (by omega) 'x'
    have := hall _ hmem
    rw [h3] at this
    exact absurd this (by decide)
  | cons d rest =>
    have hd : isSpaceChar d = false := dropWhile_head_false hdw
    have hdnp : d ≠ '%' := by
      intro hd'
      subst hd'
      rw [hdw] at hchk
      simp at hchk
    have hsplit : g = g.takeWhile isSpaceChar ++ d :: rest := by
      conv_lhs => rw [← List.takeWhile_append_dropWhile (p := isSpaceChar) (l := g)]
      rw [hdw]
    have hj : (g.takeWhile isSpaceChar).length < e := by
      by_contra hle
      push_neg at hle
      rw [hsplit, List.getD_append _ _ _ _ (by omega)] at h3
      have hmem : (g.takeWhile isSpaceChar).getD (e - 1) 'x'
          ∈ g.takeWhile isSpaceChar := getD_mem_of_lt (by omega) 'x'
      have := mem_takeWhile_pred hmem
      rw [h3] at this
      exact absurd this (by decide)
    have htake : g.take e = g.takeWhile isSpaceChar
        ++ d :: rest.take (e - (g.takeWhile isSpaceChar).length - 1) := by
      conv_lhs => rw [hsplit]
      rw [List.take_append_eq_append_take]
      congr 1
      · exact List.take_of_length_le (by omega)
      · have : e - (g.takeWhile isSpaceChar).length
            = (e - (g.takeWhile isSpaceChar).length - 1) + 1 := by omega
        rw [this, List.take_succ_cons]
        congr 2
    rw [htake, List.append_assoc, List.cons_append,
      dropWhile_block _ (fun c hc => mem_takeWhile_pred hc) hd]
    exact pctCheck_cons_false _ hdnp

/-- `remove_comments` maps a truncated segment to itself (still reporting a
comment). -/
theorem removeComments_trunc_stable {g : List Char} {e : Nat}
    (hchk : (match g.dropWhile isSpaceChar with
              | '%' :: _ => true | _ => false) = false)
    (hfp : firstPct none g 0 = some e) :
    removeComments (g.take e ++ ['\n']) = (g.take e ++ ['\n'], true) := by
  obtain ⟨h1, h2, h3, h4⟩ := firstPct_facts g none 0 e hfp
  have he0 : e - 0 = e := rfl
  rw [he0] at h4
  have h3' : g.getD (e - 1) 'x' = '%' := by
    have : e - 0 - 1 = e - 1 := rfl
    rw [this] at h3
    exact h3
  have hchk2 := pctCheck_trunc_false hchk h1 (by omega) h3'
  unfold removeComments
  rw [hchk2]
  simp only [Bool.false_eq_true, if_false]
  rw [h4 ['\n']]
  have htk : (g.take e ++ ['\n']).take e = g.take e := by
    rw [List.take_append_eq_append_take, List.take_take, Nat.min_self]
    have : e - (g.take e).length = 0 := by
      rw [List.length_take]
      omega
    rw [this, List.take_zero, List.append_nil]
  show ((g.take e ++ ['\n']).take e ++ ['\n'], true) = (g.take e ++ ['\n'], true)
  rw [htk]

/-- `remove_comments` is unaffected by appending a trailing newline to a
segment it found no comment in. -/
theorem removeComments_pad_stable {g : List Char}
    (h : removeComments g = (g, false)) :
    removeComments (g ++ ['\n']) = (g ++ ['\n'], false) := by
  obtain ⟨-, hfp, hchk⟩ := removeComments_false h
  have hchk2 : (match (g ++ ['\n']).dropWhile isSpaceChar with
      | '%' :: _ => true | _ => false) = false := by
    cases hdw : g.dropWhile isSpaceChar with
    | nil =>
      rw [dropWhile_append_nil _ hdw]
      rfl
    | cons d rest =>
      rw [dropWhile_append_ne_nil _ hdw]
      have hdnp : d ≠ '%' := by
        intro hd'
        subst hd'
        rw [hdw] at hchk
        simp at hchk
      exact pctCheck_cons_false _ hdnp
  unfold removeComments
  rw [hchk2]
  simp only [Bool.false_eq_true, if_false]
  rw [firstPct_none_append g ['\n'] none 0 hfp
    (by intro c hc; simp at hc; subst hc; decide)]

/-! ### Lemmas on segment processing and final padding -/

theorem gap_not_url {g tail : List Char}
    (hg : ∀ a c b, g = a ++ c :: b → matchUrlAt (c :: (b ++ tail)) = none) :
    (matchUrlAt g).isSome = false := by
  cases hmg : matchUrlAt g with
  | none => rfl
  | some k =>
    exfalso
    cases g with
    | nil =>
      have h0 : matchUrlAt ([] : List Char) = none := by decide
      rw [h0] at hmg
      simp at hmg
    | cons c b =>
      have hk : k ≤ (c :: b).length := (matchUrl_some_facts hmg).2.1
      have h2 : matchUrlAt ((c :: b) ++ tail) = some k := by
        have h0 : matchUrlAt ((c :: b) ++ ([] : List Char)) = some k := by
          simpa using hmg
        exact matchUrl_some_local h0 hk tail
      have h3 := hg [] c b rfl
      rw [List.cons_append] at h2
      rw [h3] at h2
      simp at h2

theorem append_singleton_cases {a : List Char} {c : Char} {b T : List Char}
    {x : Char} (h : a ++ c :: b = T ++ [x]) :
    (∃ b0, b = b0 ++ [x] ∧ T = a ++ c :: b0) ∨ (a = T ∧ c = x ∧ b = []) := by
  rcases List.eq_nil_or_concat b with rfl | ⟨b0, y, rfl⟩
  · right
    have h' : a ++ [c] = T ++ [x] := h
    have hpair := List.append_inj' h'
      (rfl : ([c] : List Char).length = ([x] : List Char).length)
    exact ⟨hpair.1, by simpa using hpair.2, rfl⟩
  · left
    have h' : (a ++ c :: b0) ++ [y] = T ++ [x] := by
      rw [← h]
      simp
    have hpair := List.append_inj' h'
      (rfl : ([y] : List Char).length = ([x] : List Char).length)
    have hy : y = x := by simpa using hpair.2
    exact ⟨b0, by rw [hy, List.concat_eq_append], hpair.1.symm⟩

/-- No url match starts inside a gap truncated at its first comment
(with trailing newline), considered in isolation. -/
theorem segsOK_trunc {g : List Char} {e : Nat} (tail : List Char)
    (hg : ∀ a c b, g = a ++ c :: b → matchUrlAt (c :: (b ++ tail)) = none)
    (_he : e ≤ g.length) :
    ∀ a c b, g.take e ++ ['\n'] = a ++ c :: b → matchUrlAt (c :: b) = none := by
  intro a c b hab
  rcases append_singleton_cases hab.symm with ⟨b0, hb, hT⟩ | ⟨ha, hc, hb⟩
  · cases hmc : matchUrlAt (c :: b) with
    | none => rfl
    | some k =>
      exfalso
      rw [hb] at hmc
      have hmc' : matchUrlAt ((c :: b0) ++ ['\n']) = some k := by simpa using hmc
      have hk := matchUrl_last_nl hmc'
      have h2 : matchUrlAt ((c :: b0) ++ (g.drop e ++ tail)) = some k :=
        matchUrl_some_local hmc' hk _
      have hgd : g = a ++ c :: (b0 ++ g.drop e) := by
        conv_lhs => rw [← List.take_append_drop e g]
        rw [hT]
        simp
      have h3 := hg a c (b0 ++ g.drop e) hgd
      rw [show c :: ((b0 ++ g.drop e) ++ tail) = (c :: b0) ++ (g.drop e ++ tail)
        by simp] at h3
      rw [h3] at h2
      simp at h2
  · subst hc
    subst hb
    exact matchUrl_not_bs [] (by decide)

theorem segsOK_pad {g : List Char} (tail : List Char)
    (hg : ∀ a c b, g = a ++ c :: b → matchUrlAt (c :: (b ++ tail)) = none) :
    ∀ a c b, g ++ ['\n'] = a ++ c :: b → matchUrlAt (c :: b) = none := by
  have h := segsOK_trunc (g := g) (e := g.length) tail hg (le_refl _)
  rw [List.take_length] at h
  exact h

theorem segsOK_nl : ∀ (a : List Char) (c : Char) (b : List Char),
    (['\n'] : List Char) = a ++ c :: b → matchUrlAt (c :: b) = none := by
  intro a c b hab
  cases a with
  | nil =>
    obtain ⟨h1, h2⟩ := List.cons.inj (by simpa using hab)
    subst h1
    subst h2
    exact matchUrl_not_bs [] (by decide)
  | cons d a' =>
    rw [List.cons_append] at hab
    obtain ⟨-, h2⟩ := List.cons.inj hab
    exact absurd h2.symm (by simp)

theorem padNL_ends_nl (r : List Char) : padNL (r ++ ['\n']) = r ++ ['\n'] := by
  unfold padNL
  rw [List.reverse_append]
  rfl

theorem padNL_cases (r : List Char) : padNL r = r ∨ padNL r = r ++ ['\n'] := by
  unfold padNL
  split
  · exact Or.inl rfl
  · exact Or.inl rfl
  · exact Or.inr rfl

theorem padNL_appended (x r : List Char) (h : padNL r = r) :
    padNL (x ++ r) = x ++ r := by
  unfold padNL at h
  split at h
  · rename_i heq
    unfold padNL
    rw [List.reverse_append, heq, List.cons_append]
    rfl
  · rename_i heq
    unfold padNL
    rw [List.reverse_append, heq, List.cons_append, List.cons_append]
    rfl
  · exfalso
    have := congrArg List.length h
    simp at this

theorem padNL_prepend_pad {r : List Char} (x m : List Char) (hm : UrlShape m)
    (h : padNL r = r ++ ['\n']) :
    padNL (x ++ (m ++ r)) = (x ++ (m ++ r)) ++ ['\n'] := by
  obtain ⟨nb, hm2, -⟩ := hm
  have hmrev : m.reverse = '}' :: (urlLit ++ nb).reverse := by
    rw [hm2, show urlLit ++ (nb ++ ['}']) = (urlLit ++ nb) ++ ['}'] by simp,
      List.reverse_append]
    rfl
  unfold padNL at h
  split at h
  · exfalso
    have := congrArg List.length h
    simp at this
  · exfalso
    have := congrArg List.length h
    simp at this
  · rename_i h1 h2
    have hrev : (x ++ (m ++ r)).reverse
        = r.reverse ++ (m.reverse ++ x.reverse) := by
      rw [List.reverse_append, List.reverse_append]
      simp
    unfold padNL
    split
    · rename_i heq
      exfalso
      rw [hrev] at heq
      cases hr : r.reverse with
      | nil =>
        rw [hr, List.nil_append, hmrev, List.cons_append] at heq
        obtain ⟨hh, -⟩ := List.cons.inj heq
        exact absurd hh (by decide)
      | cons c rr =>
        rw [hr, List.cons_append] at heq
        obtain ⟨hh, -⟩ := List.cons.inj heq
        subst hh
        exact h1 rr hr
    · rename_i heq
      exfalso
      rw [hrev] at heq
      cases hr : r.reverse with
      | nil =>
        rw [hr, List.nil_append, hmrev, List.cons_append] at heq
        obtain ⟨hh, -⟩ := List.cons.inj heq
        exact absurd hh (by decide)
      | cons c rr =>
        rw [hr, List.cons_append] at heq
        obtain ⟨hh, htl⟩ := List.cons.inj heq
        subst hh
        cases rr with
        | nil =>
          rw [List.nil_append, hmrev, List.cons_append] at htl
          obtain ⟨hh2, -⟩ := List.cons.inj htl
          exact absurd hh2 (by decide)
        | cons d rr2 =>
          rw [List.cons_append] at htl
          obtain ⟨hh2, -⟩ := List.cons.inj htl
          subst hh2
          exact h2 rr2 hr
    · rfl

/-- Append a newline to the last segment of a list. -/
def padLast : List (List Char) → List (List Char)
  | [] => []
  | [s] => [s ++ ['\n']]
  | s :: rest => s :: padLast rest

theorem padLast_cons2 (s m : List Char) (rest : List (List Char)) :
    padLast (s :: m :: rest) = s :: padLast (m :: rest) := rfl

theorem joinAll_padLast : ∀ (segs : List (List Char)), segs ≠ [] →
    joinAll (padLast segs) = joinAll segs ++ ['\n']
  | [], h => absurd rfl h
  | [s], _ => by simp [padLast, joinAll]
  | s :: s2 :: rest, _ => by
    rw [padLast_cons2, joinAll_cons, joinAll_cons,
      joinAll_padLast (s2 :: rest) (by simp), List.append_assoc]

theorem processSegs_ne_nil (s : List Char) (rest : List (List Char)) :
    processSegs (s :: rest) ≠ [] := by
  rw [processSegs]
  split
  · simp
  · split
    · simp
    · simp

/-- Every segment is left unchanged by another round of per-segment
processing (only the last segment may report a comment). -/
def StableSegs : List (List Char) → Prop
  | [] => True
  | [s] => (matchUrlAt s).isSome = true ∨ removeComments s = (s, false)
      ∨ removeComments s = (s, true)
  | s :: rest =>
    ((matchUrlAt s).isSome = true ∨ removeComments s = (s, false))
      ∧ StableSegs rest

theorem processSegs_stable : ∀ (segs : List (List Char)),
    StableSegs segs → processSegs segs = segs
  | [], _ => rfl
  | [s], h => by
    rw [processSegs]
    cases hurl : (matchUrlAt s).isSome with
    | true => rw [if_pos rfl]; rfl
    | false =>
      rw [if_neg (by simp)]
      rcases h with h | h | h
      · rw [hurl] at h; simp at h
      · rw [h]
        rfl
      · rw [h]
  | s :: s2 :: rest, h => by
    obtain ⟨h1, hrest⟩ := h
    have htail : processSegs (s2 :: rest) = s2 :: rest :=
      processSegs_stable (s2 :: rest) hrest
    rw [processSegs]
    cases hurl : (matchUrlAt s).isSome with
    | true => rw [if_pos rfl, htail]
    | false =>
      rw [if_neg (by simp)]
      rcases h1 with h1 | h1
      · rw [hurl] at h1; simp at h1
      · rw [h1]
        show s :: processSegs (s2 :: rest) = s :: s2 :: rest
        rw [htail]

theorem hasAI_exists : ∀ {l : List Char}, hasAI l = true →
    ∃ a b k, l = a ++ b ∧ matchAIAt b = some k := by
  intro l
  induction l with
  | nil => intro h; simp [hasAI] at h
  | cons c r ih =>
    intro h
    rw [hasAI_cons, Bool.or_eq_true] at h
    rcases h with h | h
    · rw [Option.isSome_iff_exists] at h
      obtain ⟨k, hk⟩ := h
      exact ⟨[], c :: r, k, rfl, hk⟩
    · obtain ⟨a, b, k, hab, hk⟩ := ih h
      exact ⟨c :: a, b, k, by rw [hab]; rfl, hk⟩

/-- An auto-ignore marker matching into at most a trailing newline survives the
replacement of that trailer by anything. -/
theorem matchAI_window {b0 w : List Char} {k : Nat}
    (hw : w = [] ∨ w = ['\n']) (h : matchAIAt (b0 ++ w) = some k) :
    ∀ z, ∃ k', matchAIAt (b0 ++ z) = some k' := by
  intro z
  rcases hw with rfl | rfl
  · rw [List.append_nil] at h
    obtain ⟨ws, rest2, heq, hws, -⟩ := matchAIAt_some_shape h
    refine ⟨1 + ws.length + 11, ?_⟩
    have hbz : b0 ++ z = '%' :: (ws ++ (aiLit ++ (rest2 ++ z))) := by
      rw [heq]
      simp
    rw [hbz]
    exact matchAIAt_marker ws (rest2 ++ z) hws
  · obtain ⟨ws, rest2, heq, hws, hk⟩ := matchAIAt_some_shape h
    have hr2 : rest2 ≠ [] := by
      intro hnil
      subst hnil
      have hlen : b0.length + 1 = 1 + ws.length + 11 := by
        have := congrArg List.length heq
        simp only [List.length_append, List.length_cons, aiLit_len,
          List.length_nil] at this
        omega
      have hL : (b0 ++ ['\n']).getD b0.length 'x' = '\n' := by
        rw [List.getD_append_right _ _ _ _ (le_refl _), Nat.sub_self]
        rfl
      rw [heq] at hL
      have hidx : b0.length = (1 + ws.length + 11) - 1 := by omega
      rw [hidx] at hL
      have : ('%' :: (ws ++ (aiLit ++ []))).getD (1 + ws.length + 11 - 1) 'x'
          = 'e' := by
        have h1 : ('%' :: (ws ++ (aiLit ++ []))).getD (1 + ws.length + 11 - 1) 'x'
            = (ws ++ (aiLit ++ [])).getD (ws.length + 10) 'x' := by
          have : 1 + ws.length + 11 - 1 = (ws.length + 10) + 1 := by omega
          rw [this]
          rfl
        rw [h1, List.getD_append_right _ _ _ _ (by omega)]
        have : ws.length + 10 - ws.length = 10 := by omega
        rw [this, List.getD_append _ _ _ _ (by decide)]
        decide
      rw [this] at hL
      exact absurd hL (by decide)
    obtain ⟨r2', cl, rfl⟩ := List.eq_nil_or_concat rest2 |>.resolve_left hr2
    have heq' : b0 ++ ['\n'] = ('%' :: (ws ++ (aiLit ++ r2'))) ++ [cl] := by
      rw [heq]
      simp
    have hpair := List.append_inj' heq'
      (rfl : (['\n'] : List Char).length = ([cl] : List Char).length)
    refine ⟨1 + ws.length + 11, ?_⟩
    have hbz : b0 ++ z = '%' :: (ws ++ (aiLit ++ (r2' ++ z))) := by
      rw [hpair.1]
      simp
    rw [hbz]
    exact matchAIAt_marker ws (r2' ++ z) hws

/-- If a prefix of a comment-free text is extended by at most a newline, it
stays free of the auto-ignore marker. -/
theorem hasAI_false_transfer {p t w : List Char}
    (hai : hasAI (p ++ t) = false) (hw : w = [] ∨ w = ['\n']) :
    hasAI (p ++ w) = false := by
  cases hpw : hasAI (p ++ w) with
  | false => rfl
  | true =>
    exfalso
    obtain ⟨a, b, k, hab, hk⟩ := hasAI_exists hpw
    by_cases hlen : p.length ≤ a.length
    · have hble : b.length ≤ w.length := by
        have := congrArg List.length hab
        simp only [List.length_append] at this
        omega
      have hwlen : w.length ≤ 1 := by
        rcases hw with rfl | rfl <;> simp
      obtain ⟨ws, rest2, hbeq, -, -⟩ := matchAIAt_some_shape hk
      have := congrArg List.length hbeq
      simp only [List.length_append, List.length_cons, aiLit_len] at this
      omega
    · push_neg at hlen
      have hbdrop : b = p.drop a.length ++ w := by
        have h1 : b = (a ++ b).drop a.length := by
          rw [List.drop_append_eq_append_drop, Nat.sub_self, List.drop_zero,
            List.drop_length, List.nil_append]
        rw [← hab, List.drop_append_eq_append_drop] at h1
        have h2 : a.length - p.length = 0 := by omega
        rw [h2, List.drop_zero] at h1
        exact h1
      rw [hbdrop] at hk
      obtain ⟨k', hk'⟩ := matchAI_window hw hk t
      have hpa : p = a ++ p.drop a.length := by
        have h1 : a = p.take a.length := by
          have h2 : a = (a ++ b).take a.length := by
            rw [List.take_append_eq_append_take, Nat.sub_self, List.take_zero,
              List.append_nil, List.take_length]
          rw [← hab, List.take_append_eq_append_take] at h2
          have h3 : a.length - p.length = 0 := by omega
          rw [h3, List.take_zero, List.append_nil] at h2
          exact h2
        conv_lhs => rw [← List.take_append_drop a.length p]
        rw [← h1]
      have := hasAI_of_suffix a hk'
      rw [show a ++ (p.drop a.length ++ t) = p ++ t by
        conv_rhs => rw [hpa]
        simp] at this
      rw [this] at hai
      simp at hai

theorem fullCommentLine_false_transfer {p t w : List Char}
    (hfc : fullCommentLine (p ++ t) = false) (hw : w = [] ∨ w = ['\n']) :
    fullCommentLine (p ++ w) = false := by
  cases hq : fullCommentLine (p ++ w) with
  | false => rfl
  | true =>
    exfalso
    unfold fullCommentLine at hq
    cases hd1 : p.dropWhile (· = ' ') with
    | nil =>
      rw [dropWhile_append_nil _ hd1] at hq
      rcases hw with rfl | rfl
      · exact absurd hq (by decide)
      · exact absurd hq (by decide)
    | cons d p1 =>
      rw [dropWhile_append_ne_nil _ hd1] at hq
      cases hd2 : (d :: p1).dropWhile (· = '\t') with
      | nil =>
        rw [← List.cons_append, dropWhile_append_nil _ hd2] at hq
        rcases hw with rfl | rfl
        · exact absurd hq (by decide)
        · exact absurd hq (by decide)
      | cons e p2 =>
        rw [← List.cons_append, dropWhile_append_ne_nil _ hd2] at hq
        have he : e = '%' := by
          by_cases he : e = '%'
          · exact he
          · rw [pctCheck_cons_false _ he] at hq
            simp at hq
        subst he
        have hgoal : fullCommentLine (p ++ t) = true := by
          unfold fullCommentLine
          rw [dropWhile_append_ne_nil _ hd1, ← List.cons_append,
            dropWhile_append_ne_nil _ hd2]
          rfl
        rw [hgoal] at hfc
        simp at hfc

theorem padLast_ne_nil : ∀ (s : List Char) (rest : List (List Char)),
    padLast (s :: rest) ≠ []
  | _, [] => by simp [padLast]
  | s, r :: rest => by
    rw [padLast_cons2]
    simp

theorem removeComments_true_shape {g g2 : List Char}
    (hrc : removeComments g = (g2, true)) :
    g2 = [] ∨ ∃ e, firstPct none g 0 = some e ∧ g2 = g.take e ++ ['\n']
      ∧ (match g.dropWhile isSpaceChar with
          | '%' :: _ => true | _ => false) = false := by
  unfold removeComments at hrc
  split at hrc
  · left
    exact (Prod.mk.inj hrc).1.symm
  · rename_i hchk
    split at hrc
    · rename_i e hfp
      right
      exact ⟨e, hfp, (Prod.mk.inj hrc).1.symm, by simpa using hchk⟩
    · simp at hrc

theorem urlShape_isSome {m : List Char} (hsh : UrlShape m) :
    (matchUrlAt m).isSome = true := by
  obtain ⟨nb, hm2, hnb⟩ := hsh
  have h : matchUrlAt m = some (5 + nb.length + 1) := by
    rw [hm2]
    exact matchUrl_shape nb [] hnb
  rw [h]
  rfl

/-- Everything the idempotence argument needs about one pass of the
per-segment loop: the output is a prefix of the input followed by at most one
newline, it is again a well-split segment list, it is stable under
reprocessing, and the same holds after final-newline padding. -/
theorem processSegs_main : ∀ (segs : List (List Char)), SegsOK segs →
    (∃ p w0, joinAll (processSegs segs) = p ++ w0
        ∧ (∃ t, joinAll segs = p ++ t) ∧ (w0 = [] ∨ w0 = ['\n']))
    ∧ (SegsOK (processSegs segs) ∧ StableSegs (processSegs segs))
    ∧ (padNL (joinAll (processSegs segs)) = joinAll (processSegs segs)
        ∨ (padNL (joinAll (processSegs segs))
              = joinAll (processSegs segs) ++ ['\n']
            ∧ SegsOK (padLast (processSegs segs))
            ∧ StableSegs (padLast (processSegs segs))))
  | [], h => h.elim
  | [g], h => by
    have hg : ∀ a c b, g = a ++ c :: b →
        matchUrlAt (c :: (b ++ ([] : List Char))) = none := by
      intro a c b hab
      rw [List.append_nil]
      exact h a c b hab
    have hurl : (matchUrlAt g).isSome = false := gap_not_url hg
    cases hrc : removeComments g with
    | mk g2 flag =>
      cases flag with
      | true =>
        have hps : processSegs [g] = [g2] := by
          rw [processSegs, if_neg (by simp [hurl]), hrc]
        rw [hps]
        rcases removeComments_true_shape hrc with rfl | ⟨e, hfp, rfl, hchk⟩
        · refine ⟨⟨[], [], rfl, ⟨joinAll [g], rfl⟩, Or.inl rfl⟩,
            ⟨?_, Or.inr (Or.inl (by decide))⟩, Or.inr ⟨by decide, ?_, ?_⟩⟩
          · intro a c b hab
            exact absurd hab (by simp)
          · show ∀ a c b, ([] : List Char) ++ ['\n'] = a ++ c :: b →
              matchUrlAt (c :: b) = none
            intro a c b hab
            exact segsOK_nl a c b (by simpa using hab)
          · exact Or.inr (Or.inl removeComments_nl)
        · have he : e ≤ g.length := by
            have := (firstPct_facts g none 0 e hfp).2.1
            omega
          refine ⟨⟨g.take e, ['\n'], by simp [joinAll], ⟨g.drop e, ?_⟩,
              Or.inr rfl⟩,
            ⟨segsOK_trunc [] hg he, Or.inr (Or.inr
              (removeComments_trunc_stable hchk hfp))⟩,
            Or.inl ?_⟩
          · show g ++ [] = g.take e ++ g.drop e
            rw [List.append_nil, List.take_append_drop]
          · show padNL (joinAll [g.take e ++ ['\n']]) = joinAll [g.take e ++ ['\n']]
            have hj : joinAll [g.take e ++ ['\n']] = g.take e ++ ['\n'] := by
              simp [joinAll]
            rw [hj]
            exact padNL_ends_nl (g.take e)
      | false =>
        obtain ⟨hg2, -, -⟩ := removeComments_false hrc
        rw [hg2] at hrc
        have hps : processSegs [g] = [g] := by
          rw [processSegs, if_neg (by simp [hurl]), hrc]
          rfl
        rw [hps]
        refine ⟨⟨g, [], by simp [joinAll], ⟨[], rfl⟩, Or.inl rfl⟩,
          ⟨h, Or.inr (Or.inl hrc)⟩, ?_⟩
        rcases padNL_cases (joinAll [g]) with hpn | hpn
        · exact Or.inl hpn
        · refine Or.inr ⟨hpn, ?_, ?_⟩
          · show ∀ a c b, g ++ ['\n'] = a ++ c :: b → matchUrlAt (c :: b) = none
            exact segsOK_pad [] hg
          · exact Or.inr (Or.inl (removeComments_pad_stable hrc))
  | g :: m :: rest, h => by
    obtain ⟨hgap, hsh, hrest⟩ := h
    have hurl : (matchUrlAt g).isSome = false := gap_not_url hgap
    have hurlm : (matchUrlAt m).isSome = true := urlShape_isSome hsh
    have gap' : ∀ (z : List Char), ∀ a c b, g = a ++ c :: b →
        matchUrlAt (c :: (b ++ (m ++ z))) = none := by
      intro z a c b hab
      have h0 := hgap a c b hab
      have hb := matchUrl_boundary (c :: b) m z (joinAll rest) hsh
      show matchUrlAt (c :: (b ++ (m ++ z))) = none
      rw [show c :: (b ++ (m ++ z)) = (c :: b) ++ (m ++ z) from rfl, hb]
      exact h0
    cases hrc : removeComments g with
    | mk g2 flag =>
      cases flag with
      | true =>
        have hps : processSegs (g :: m :: rest) = [g2] := by
          rw [processSegs, if_neg (by simp [hurl]), hrc]
        rw [hps]
        rcases removeComments_true_shape hrc with rfl | ⟨e, hfp, rfl, hchk⟩
        · refine ⟨⟨[], [], rfl, ⟨joinAll (g :: m :: rest), rfl⟩, Or.inl rfl⟩,
            ⟨?_, Or.inr (Or.inl (by decide))⟩, Or.inr ⟨by decide, ?_, ?_⟩⟩
          · intro a c b hab
            exact absurd hab (by simp)
          · show ∀ a c b, ([] : List Char) ++ ['\n'] = a ++ c :: b →
              matchUrlAt (c :: b) = none
            intro a c b hab
            exact segsOK_nl a c b (by simpa using hab)
          · exact Or.inr (Or.inl removeComments_nl)
        · have he : e ≤ g.length := by
            have := (firstPct_facts g none 0 e hfp).2.1
            omega
          refine ⟨⟨g.take e, ['\n'], by simp [joinAll], ⟨g.drop e ++ (m ++ joinAll rest), ?_⟩,
              Or.inr rfl⟩,
            ⟨segsOK_trunc (m ++ joinAll rest) hgap he, Or.inr (Or.inr
              (removeComments_trunc_stable hchk hfp))⟩,
            Or.inl ?_⟩
          · show g ++ (m ++ joinAll rest) = g.take e ++ (g.drop e ++ (m ++ joinAll rest))
            conv_rhs => rw [← List.append_assoc]
            rw [List.take_append_drop]
          · show padNL (joinAll [g.take e ++ ['\n']]) = joinAll [g.take e ++ ['\n']]
            have hj : joinAll [g.take e ++ ['\n']] = g.take e ++ ['\n'] := by
              simp [joinAll]
            rw [hj]
            exact padNL_ends_nl (g.take e)
      | false =>
        obtain ⟨hg2, -, -⟩ := removeComments_false hrc
        rw [hg2] at hrc
        have hps : processSegs (g :: m :: rest) = g :: m :: processSegs rest := by
          rw [processSegs, if_neg (by simp [hurl]), hrc]
          show g :: processSegs (m :: rest) = _
          rw [processSegs, if_pos hurlm]
        rw [hps]
        obtain ⟨⟨p', w0, hpw', ⟨t', ht'⟩, hw0⟩, ⟨ihok, ihst⟩, ih3⟩ :=
          processSegs_main rest hrest
        refine ⟨⟨g ++ (m ++ p'), w0, ?_, ⟨t', ?_⟩, hw0⟩, ⟨?_, ?_⟩, ?_⟩
        · rw [joinAll_cons, joinAll_cons, hpw']
          simp
        · rw [joinAll_cons, joinAll_cons, ht']
          simp
        · -- SegsOK (g :: m :: processSegs rest)
          exact ⟨gap' (joinAll (processSegs rest)), hsh, ihok⟩
        · -- StableSegs (g :: m :: processSegs rest)
          cases hX : processSegs rest with
          | nil =>
            rw [hX] at ihok
            exact ihok.elim
          | cons x xs =>
            rw [hX] at ihst
            exact ⟨Or.inr hrc, Or.inl hurlm, ihst⟩
        · rcases ih3 with h3 | ⟨h3p, h3ok, h3st⟩
          · refine Or.inl ?_
            rw [joinAll_cons, joinAll_cons, ← List.append_assoc]
            exact padNL_appended (g ++ m) (joinAll (processSegs rest)) h3
          · refine Or.inr ⟨?_, ?_, ?_⟩
            · rw [joinAll_cons, joinAll_cons]
              exact padNL_prepend_pad g m hsh h3p
            · cases hX : processSegs rest with
              | nil =>
                rw [hX] at ihok
                exact ihok.elim
              | cons x xs =>
                rw [hX] at h3ok
                rw [padLast_cons2, padLast_cons2]
                cases hY : padLast (x :: xs) with
                | nil => exact absurd hY (padLast_ne_nil x xs)
                | cons y ys =>
                  rw [hY] at h3ok
                  refine ⟨?_, hsh, h3ok⟩
                  intro a c b hab
                  exact gap' (joinAll (y :: ys)) a c b hab
            · cases hX : processSegs rest with
              | nil =>
                rw [hX] at ihok
                exact ihok.elim
              | cons x xs =>
                rw [hX] at h3st
                rw [padLast_cons2, padLast_cons2]
                cases hY : padLast (x :: xs) with
                | nil => exact absurd hY (padLast_ne_nil x xs)
                | cons y ys =>
                  rw [hY] at h3st
                  exact ⟨Or.inr hrc, Or.inl hurlm, h3st⟩

/-- Idempotence of `_remove_comments_inline` on inputs without the
auto-ignore marker and not consisting of a full comment line. -/
theorem rci_idem_noAI {x : List Char} (hai : hasAI x = false)
    (hfc : fullCommentLine x = false) :
    removeCommentsInline (removeCommentsInline x) = removeCommentsInline x := by
  have hok : SegsOK (splitUrl x.length x) := splitUrl_ok x.length x (le_refl _)
  have hjoin : joinAll (splitUrl x.length x) = x := splitUrl_join x.length x
  obtain ⟨⟨p, w0, hpw, ⟨t, hxt⟩, hw0⟩, ⟨hok', hst'⟩, h3⟩ :=
    processSegs_main (splitUrl x.length x) hok
  rw [hjoin] at hxt
  have hfx : removeCommentsInline x
      = padNL (joinAll (processSegs (splitUrl x.length x))) := by
    unfold removeCommentsInline
    simp only [hai, hfc, Bool.false_eq_true, if_false]
  set segs' := processSegs (splitUrl x.length x) with hsegs'
  rcases h3 with h3 | ⟨h3p, h3ok, h3st⟩
  · rw [hfx, h3]
    have hai2 : hasAI (joinAll segs') = false := by
      rw [hpw]
      exact hasAI_false_transfer (by rw [← hxt]; exact hai) hw0
    have hfc2 : fullCommentLine (joinAll segs') = false := by
      rw [hpw]
      exact fullCommentLine_false_transfer (by rw [← hxt]; exact hfc) hw0
    unfold removeCommentsInline
    simp only [hai2, hfc2, Bool.false_eq_true, if_false]
    rw [splitUrl_recon segs' (joinAll segs').length hok' (le_refl _)]
    rw [processSegs_stable segs' hst']
    exact h3
  · rw [hfx, h3p]
    have hne : segs' ≠ [] := by
      intro hnil
      rw [hnil] at hok'
      exact hok'
    have hjp : joinAll (padLast segs') = joinAll segs' ++ ['\n'] :=
      joinAll_padLast segs' hne
    have hw0' : w0 = [] := by
      rcases hw0 with rfl | rfl
      · rfl
      · exfalso
        rw [hpw, padNL_ends_nl p] at h3p
        have := congrArg List.length h3p
        simp at this
    subst hw0'
    rw [List.append_nil] at hpw
    have hai2 : hasAI (joinAll segs' ++ ['\n']) = false := by
      rw [hpw]
      exact hasAI_false_transfer (by rw [← hxt]; exact hai) (Or.inr rfl)
    have hfc2 : fullCommentLine (joinAll segs' ++ ['\n']) = false := by
      rw [hpw]
      exact fullCommentLine_false_transfer (by rw [← hxt]; exact hfc) (Or.inr rfl)
    unfold removeCommentsInline
    simp only [hai2, hfc2, Bool.false_eq_true, if_false]
    rw [← hjp]
    rw [splitUrl_recon (padLast segs') (joinAll (padLast segs')).length h3ok
      (le_refl _)]
    rw [processSegs_stable (padLast segs') h3st]
    rw [hjp]
    exact padNL_ends_nl (joinAll segs')

/-- C5 — counterexample.  `_remove_comments_inline` is not idempotent: the
line `"%"` is a full comment line and maps to the empty string, but the empty
string is not a full comment line and maps to `"\n"` (the final-newline
padding), so applying the function twice differs from applying it once. -/
theorem rci_not_idempotent :
    removeCommentsInline (removeCommentsInline ['%'])
      ≠ removeCommentsInline ['%'] := by decide

/-- C5 (amended).  `_remove_comments_inline` is idempotent on every input
whose image is non-empty: the only failures of idempotence are inputs mapped
to the empty string (full comment lines), which a second application pads
with a newline. -/
theorem rci_idempotent_amended (x : List Char)
    (h : removeCommentsInline x ≠ []) :
    removeCommentsInline (removeCommentsInline x) = removeCommentsInline x := by
  by_cases hai : hasAI x = true
  · exact rci_idem_AI x hai
  · have hai' : hasAI x = false := by simpa using hai
    by_cases hfc : fullCommentLine x = true
    · exfalso
      apply h
      unfold removeCommentsInline
      simp only [hai', Bool.false_eq_true, if_false, hfc, if_true]
    · exact rci_idem_noAI hai' (by simpa using hfc)

/-- C5 — witness for the amended idempotence theorem at the concrete input
`"a%b"` (image `"a%\n"`, non-empty). -/
theorem rci_idempotent_amended_witness :
    removeCommentsInline ("a%b".toList) ≠ []
      ∧ removeCommentsInline (removeCommentsInline ("a%b".toList))
          = removeCommentsInline ("a%b".toList) :=
  ⟨by decide, rci_idempotent_amended ("a%b".toList) (by decide)⟩

/-! ### Shallow embedding of `_remove_command` -/

/-- Scan for the closing brace matching an (already consumed) opening brace,
tracking nesting depth; returns the remainder after the matching `\x7d`.  This
is the deterministic outcome of the balanced-brace regex group
`\{((?:[^{}]+|\{(?1)\})*)\}`. -/
def braceScan : Nat → Nat → List Char → Option (List Char)
  | 0, _, _ => none
  | _ + 1, _, [] => none
  | fuel + 1, depth, c :: rest =>
    if c = '{' then braceScan fuel (depth + 1) rest
    else if c = '}' then
      if depth = 0 then some rest else braceScan fuel (depth - 1) rest
    else braceScan fuel depth rest

/-- Scan to the first `]` on the current line (the lazy `.*?` inside a
bracket option with nothing after it forcing extension). -/
def findRB : List Char → Option (List Char)
  | [] => none
  | c :: rest =>
    if c = ']' then some rest
    else if c = '\n' then none
    else findRB rest

/-- The trailing `(?:\[(?:.*?)\])*` after the braced argument: with nothing
following in the pattern, the greedy repetition takes every complete bracket
group, each with minimal content. -/
def trailOpts : Nat → List Char → List Char
  | 0, s => s
  | fuel + 1, s =>
    match s with
    | [] => s
    | c :: rest =>
      if c = '[' then
        (match findRB rest with
         | some rest2 => trailOpts fuel rest2
         | none => s)
      else s

/-- Continuation after the leading bracket options: the braced balanced
argument followed by the trailing bracket options. -/
def braceK : List Char → Option (List Char)
  | [] => none
  | c :: rest =>
    if c = '{' then
      (match braceScan rest.length 0 rest with
       | some s3 => some (trailOpts s3.length s3)
       | none => none)
    else none

/-- The leading `(?:\[(?:.*?)\])*` with the rest of the pattern as
continuation, with full regex backtracking: the greedy repetition prefers one
more bracket group, each group's lazy content prefers the nearest `]` but may
extend past it (mode `true` scans for a candidate `]`, content not crossing a
newline). -/
def optsStep : Nat → Bool → List Char → Option (List Char)
  | 0, b, s => if b then none else braceK s
  | fuel + 1, false, s =>
    match s with
    | [] => braceK []
    | c :: rest =>
      if c = '[' then
        (match optsStep fuel true rest with
         | some r => some r
         | none => braceK (c :: rest))
      else braceK (c :: rest)
  | fuel + 1, true, s =>
    match s with
    | [] => none
    | c :: rest =>
      if c = ']' then
        (match optsStep fuel false rest with
         | some r => some r
         | none => optsStep fuel true rest)
      else if c = '\n' then none
      else optsStep fuel true rest

/-- Match of `base_pattern` at the head of `s`, returning the match length. -/
def matchCmdAt (cmd : List Char) (s : List Char) : Option Nat :=
  if ('\\' :: cmd).isPrefixOf s then
    match optsStep (2 * (s.drop (cmd.length + 1)).length + 2) false
        (s.drop (cmd.length + 1)) with
    | some s4 => some (s.length - s4.length)
    | none => none
  else none

/-- `extract_text_inside_curly_braces`: the first balanced `\x7b...\x7d` group
of the text (searched left to right), returning its inside. -/
def extractFB : Nat → List Char → List Char
  | 0, _ => []
  | fuel + 1, s =>
    match s with
    | [] => []
    | c :: rest =>
      if c = '{' then
        (match braceScan rest.length 0 rest with
         | some s3 => rest.take (rest.length - s3.length - 1)
         | none => extractFB fuel rest)
      else extractFB fuel rest

/-- The text before the first newline, if any newline exists. -/
def splitNL : List Char → Option (List Char)
  | [] => none
  | c :: rest => if c = '\n' then some [] else (splitNL rest).map (c :: ·)

/-- One `finditer` pass with all substitutions applied (rebuilding left to
right is equivalent to the source's reversed in-place replacement); also
reports whether any match was found. -/
def subCmdPass (cmd : List Char) (keepText : Bool) : Nat → List Char → List Char × Bool
  | 0, s => (s, false)
  | fuel + 1, s =>
    match s with
    | [] => ([], false)
    | c :: _ =>
      match matchCmdAt cmd s with
      | some k =>
        let repl :=
          if keepText then extractFB s.length (s.take k)
          else if k < s.length then
            (match splitNL (s.drop k) with
             | some upto => if upto.all isSpaceChar then ['%'] else []
             | none => [])
          else []
        let res := subCmdPass cmd keepText fuel (s.drop k)
        (repl ++ res.1, true)
      | none =>
        let res := subCmdPass cmd keepText fuel (s.drop 1)
        (c :: res.1, res.2)

/-- The `while True` loop: repeat passes while `keep_text` and the last pass
found a match (each such pass strictly shortens the text, so `|text| + 1`
iterations suffice). -/
def removeCommandLoop (cmd : List Char) (keepText : Bool) : Nat → List Char → List Char
  | 0, s => s
  | fuel + 1, s =>
    let res := subCmdPass cmd keepText s.length s
    if keepText && res.2 then removeCommandLoop cmd keepText fuel res.1
    else res.1

/-- Shallow embedding of `_remove_command`. -/
def removeCommand (text command : List Char) (keepText : Bool) : List Char :=
  removeCommandLoop command keepText (text.length + 1) text

theorem braceScan_free : ∀ (X : List Char) (tail : List Char) (fuel : Nat),
    X.length + 1 ≤ fuel → (∀ c ∈ X, c ≠ '{' ∧ c ≠ '}') →
    braceScan fuel 0 (X ++ ('}' :: tail)) = some tail := by
  intro X
  induction X with
  | nil =>
    intro tail fuel hf hX
    cases fuel with
    | zero => omega
    | succ n =>
      rw [List.nil_append]
      rw [braceScan]
      simp
  | cons c X ih =>
    intro tail fuel hf hX
    cases fuel with
    | zero => simp at hf
    | succ n =>
      obtain ⟨hc1, hc2⟩ := hX c (by simp)
      rw [List.cons_append, braceScan, if_neg hc1, if_neg hc2]
      exact ih tail n (by simp at hf ⊢; omega) (fun d hd => hX d (by simp [hd]))

theorem braceK_no_brace {s : List Char} (h : ∀ c ∈ s, c ≠ '{') :
    braceK s = none := by
  cases s with
  | nil => rfl
  | cons c rest =>
    rw [braceK, if_neg (h c (by simp))]

theorem trailOpts_not_lb {s : List Char} (h : ∀ rest, s ≠ '[' :: rest) :
    ∀ fuel, trailOpts fuel s = s := by
  intro fuel
  cases fuel with
  | zero => rfl
  | succ n =>
    cases s with
    | nil => rfl
    | cons c rest =>
      rw [trailOpts]
      have hc : c ≠ '[' := by
        intro hc
        subst hc
        exact h rest rfl
      rw [if_neg hc]

theorem optsStep_no_brace : ∀ (fuel : Nat) (b : Bool) (s : List Char),
    (∀ c ∈ s, c ≠ '{') → optsStep fuel b s = none := by
  intro fuel
  induction fuel with
  | zero =>
    intro b s h
    cases b with
    | true => rfl
    | false =>
      show braceK s = none
      exact braceK_no_brace h
  | succ n ih =>
    intro b s h
    cases b with
    | false =>
      cases s with
      | nil => rfl
      | cons c rest =>
        rw [optsStep]
        by_cases hc : c = '['
        · rw [if_pos hc, ih true rest (fun d hd => h d (by simp [hd])),
            braceK_no_brace h]
        · rw [if_neg hc, braceK_no_brace h]
    | true =>
      cases s with
      | nil => rfl
      | cons c rest =>
        rw [optsStep]
        by_cases hc : c = ']'
        · rw [if_pos hc, ih false rest (fun d hd => h d (by simp [hd])),
            ih true rest (fun d hd => h d (by simp [hd]))]
        · rw [if_neg hc]
          by_cases hn : c = '\n'
          · rw [if_pos hn]
          · rw [if_neg hn]
            exact ih true rest (fun d hd => h d (by simp [hd]))

theorem matchCmdAt_no_brace (cmd s : List Char) (h : ∀ c ∈ s, c ≠ '{') :
    matchCmdAt cmd s = none := by
  unfold matchCmdAt
  split
  · rw [optsStep_no_brace _ false _
      (fun c hc => h c (List.drop_subset _ _ hc))]
  · rfl

theorem subCmdPass_no_brace (cmd : List Char) (kt : Bool) :
    ∀ (fuel : Nat) (s : List Char), (∀ c ∈ s, c ≠ '{') →
    subCmdPass cmd kt fuel s = (s, false) := by
  intro fuel
  induction fuel with
  | zero => intro s h; rfl
  | succ n ih =>
    intro s h
    cases s with
    | nil => rfl
    | cons c rest =>
      rw [subCmdPass, matchCmdAt_no_brace cmd _ h]
      have : (c :: rest).drop 1 = rest := rfl
      rw [this, ih rest (fun d hd => h d (by simp [hd]))]
theorem matchCmdAt_shape (X tail : List Char)
    (hX : ∀ c ∈ X, c ≠ '{' ∧ c ≠ '}')
    (htail : ∀ rest, tail ≠ '[' :: rest) :
    matchCmdAt ['c', 'm', 'd']
        ('\\' :: 'c' :: 'm' :: 'd' :: '{' :: (X ++ ('}' :: tail)))
      = some (6 + X.length) := by
  unfold matchCmdAt
  rw [if_pos (by
    rw [List.isPrefixOf_iff_prefix]
    exact ⟨'{' :: (X ++ ('}' :: tail)), rfl⟩)]
  have hdrop : ('\\' :: 'c' :: 'm' :: 'd' :: '{' :: (X ++ ('}' :: tail))).drop
      ((['c', 'm', 'd'] : List Char).length + 1) = '{' :: (X ++ ('}' :: tail)) := rfl
  rw [hdrop]
  have hstep : optsStep (2 * ('{' :: (X ++ ('}' :: tail))).length + 2) false
      ('{' :: (X ++ ('}' :: tail))) = some tail := by
    rw [show 2 * ('{' :: (X ++ ('}' :: tail))).length + 2
        = (2 * ('{' :: (X ++ ('}' :: tail))).length + 1) + 1 from rfl]
    rw [optsStep]
    rw [if_neg (by decide : ¬('{' = '['))]
    rw [braceK, if_pos rfl]
    rw [braceScan_free X tail (X ++ ('}' :: tail)).length
      (by simp) hX]
    show some (trailOpts tail.length tail) = some tail
    rw [trailOpts_not_lb htail]
  rw [hstep]
  show some (('\\' :: 'c' :: 'm' :: 'd' :: '{' :: (X ++ ('}' :: tail))).length
    - tail.length) = some (6 + X.length)
  have hlen : ('\\' :: 'c' :: 'm' :: 'd' :: '{' :: (X ++ ('}' :: tail))).length
      - tail.length = 6 + X.length := by
    simp only [List.length_cons, List.length_append]
    omega
  rw [hlen]
theorem extractFB_step {c : Char} (hc : c ≠ '{') (f : Nat) (rest : List Char) :
    extractFB (f + 1) (c :: rest) = extractFB f rest := by
  simp only [extractFB]
  rw [if_neg hc]

theorem extractFB_open (f : Nat) (X : List Char)
    (hX : ∀ c ∈ X, c ≠ '{' ∧ c ≠ '}') :
    extractFB (f + 1) ('{' :: (X ++ ['}'])) = X := by
  simp only [extractFB, if_true]
  rw [braceScan_free X [] (X ++ ['}']).length (by simp) hX]
  show (X ++ ['}']).take ((X ++ ['}']).length - ([] : List Char).length - 1) = X
  have h1 : (X ++ ['}']).length - ([] : List Char).length - 1 = X.length := by
    simp
  rw [h1, List.take_left]

theorem extractFB_shape (X : List Char) (hX : ∀ c ∈ X, c ≠ '{' ∧ c ≠ '}')
    (f : Nat) :
    extractFB (f + 5) ('\\' :: 'c' :: 'm' :: 'd' :: '{' :: (X ++ ['}'])) = X := by
  have e1 := extractFB_step (by decide : ('\\' : Char) ≠ '{') (f + 4)
    ('c' :: 'm' :: 'd' :: '{' :: (X ++ ['}']))
  have e2 := extractFB_step (by decide : ('c' : Char) ≠ '{') (f + 3)
    ('m' :: 'd' :: '{' :: (X ++ ['}']))
  have e3 := extractFB_step (by decide : ('m' : Char) ≠ '{') (f + 2)
    ('d' :: '{' :: (X ++ ['}']))
  have e4 := extractFB_step (by decide : ('d' : Char) ≠ '{') (f + 1)
    ('{' :: (X ++ ['}']))
  rw [show f + 5 = (f + 4) + 1 from rfl] at e1
  exact e1.trans (e2.trans (e3.trans (e4.trans (extractFB_open f X hX))))
theorem subCmdPass_cons_match {cmd : List Char} {kt : Bool} {fuel : Nat}
    {c : Char} {rest : List Char} {k : Nat}
    (hm : matchCmdAt cmd (c :: rest) = some k) :
    subCmdPass cmd kt (fuel + 1) (c :: rest)
      = ((if kt then extractFB (c :: rest).length ((c :: rest).take k)
          else if k < (c :: rest).length then
            (match splitNL ((c :: rest).drop k) with
             | some upto => if upto.all isSpaceChar then ['%'] else []
             | none => [])
          else [])
          ++ (subCmdPass cmd kt fuel ((c :: rest).drop k)).1, true) := by
  conv_lhs => rw [subCmdPass]
  rw [hm]
theorem subCmdPass_cons_nomatch {cmd : List Char} {kt : Bool} {fuel : Nat}
    {c : Char} {rest : List Char}
    (hm : matchCmdAt cmd (c :: rest) = none) :
    subCmdPass cmd kt (fuel + 1) (c :: rest)
      = (c :: (subCmdPass cmd kt fuel rest).1, (subCmdPass cmd kt fuel rest).2) := by
  conv_lhs => rw [subCmdPass]
  rw [hm]
  rfl

theorem removeCommand_line_end (X : List Char)
    (hX : ∀ c ∈ X, c ≠ '{' ∧ c ≠ '}') :
    removeCommand ('\\' :: 'c' :: 'm' :: 'd' :: '{' :: (X ++ ('}' :: ['\n'])))
        ['c', 'm', 'd'] false = ['%', '\n'] := by
  have hnl : ∀ rest, (['\n'] : List Char) ≠ '[' :: rest := by
    intro rest h
    exact absurd (List.cons.inj h).1 (by decide)
  have hm := matchCmdAt_shape X ['\n'] hX hnl
  have hdrop : ('\\' :: 'c' :: 'm' :: 'd' :: '{' :: (X ++ ('}' :: ['\n']))).drop
      (6 + X.length) = ['\n'] := by
    have h3 : List.drop (X.length + 1)
        (List.drop 5 ('\\' :: 'c' :: 'm' :: 'd' :: '{' :: (X ++ ('}' :: ['\n']))))
        = List.drop (6 + X.length)
            ('\\' :: 'c' :: 'm' :: 'd' :: '{' :: (X ++ ('}' :: ['\n']))) := by
      rw [List.drop_drop]
      congr 1
      omega
    rw [← h3]
    have h2 : List.drop 5 ('\\' :: 'c' :: 'm' :: 'd' :: '{' :: (X ++ ('}' :: ['\n'])))
        = X ++ ('}' :: ['\n']) := rfl
    rw [h2, List.drop_append_eq_append_drop]
    have h4 : X.drop (X.length + 1) = [] := by
      apply List.drop_eq_nil_of_le
      omega
    have h5 : X.length + 1 - X.length = 1 := by omega
    rw [h4, h5]
    rfl
  have hlt : 6 + X.length
      < ('\\' :: 'c' :: 'm' :: 'd' :: '{' :: (X ++ ('}' :: ['\n']))).length := by
    simp
    omega
  have hlen : ('\\' :: 'c' :: 'm' :: 'd' :: '{' :: (X ++ ('}' :: ['\n']))).length
      = (((X ++ ('}' :: ['\n'])).length + 4) + 1) := by simp
  have hpass : subCmdPass ['c', 'm', 'd'] false
      (((X ++ ('}' :: ['\n'])).length + 4) + 1)
      ('\\' :: 'c' :: 'm' :: 'd' :: '{' :: (X ++ ('}' :: ['\n'])))
      = (['%', '\n'], true) := by
    rw [subCmdPass_cons_match hm]
    simp only [Bool.false_eq_true, if_false]
    rw [hdrop, if_pos hlt]
    rw [subCmdPass_no_brace ['c', 'm', 'd'] false _ ['\n'] (by decide)]
    rfl
  rw [removeCommand, removeCommandLoop, hlen, hpass]
  rfl
theorem removeCommand_text_end (X : List Char)
    (hX : ∀ c ∈ X, c ≠ '{' ∧ c ≠ '}') :
    removeCommand ('\\' :: 'c' :: 'm' :: 'd' :: '{' :: (X ++ ('}' :: [])))
        ['c', 'm', 'd'] false = [] := by
  have hm := matchCmdAt_shape X [] hX (by intro rest h; exact absurd h (by simp))
  have hge : ¬ (6 + X.length
      < ('\\' :: 'c' :: 'm' :: 'd' :: '{' :: (X ++ ('}' :: []))).length) := by
    simp
    omega
  have hdrop : ('\\' :: 'c' :: 'm' :: 'd' :: '{' :: (X ++ ('}' :: []))).drop
      (6 + X.length) = [] := by
    apply List.drop_eq_nil_of_le
    simp
    omega
  have hpass : subCmdPass ['c', 'm', 'd'] false
      (((X ++ ('}' :: [])).length + 4) + 1)
      ('\\' :: 'c' :: 'm' :: 'd' :: '{' :: (X ++ ('}' :: [])))
      = ([], true) := by
    rw [subCmdPass_cons_match hm]
    simp only [Bool.false_eq_true, if_false]
    rw [if_neg hge, hdrop,
      subCmdPass_no_brace ['c', 'm', 'd'] false _ [] (by simp)]
    rfl
  have hlen : ('\\' :: 'c' :: 'm' :: 'd' :: '{' :: (X ++ ('}' :: []))).length
      = (((X ++ ('}' :: [])).length + 4) + 1) := by simp
  rw [removeCommand, removeCommandLoop, hlen, hpass]
  rfl

theorem removeCommand_keep (X : List Char)
    (hX : ∀ c ∈ X, c ≠ '{' ∧ c ≠ '}') :
    removeCommand ('\\' :: 'c' :: 'm' :: 'd' :: '{' :: (X ++ ('}' :: [])))
        ['c', 'm', 'd'] true = X := by
  have hm := matchCmdAt_shape X [] hX (by intro rest h; exact absurd h (by simp))
  have htake : ('\\' :: 'c' :: 'm' :: 'd' :: '{' :: (X ++ ('}' :: []))).take
      (6 + X.length) = '\\' :: 'c' :: 'm' :: 'd' :: '{' :: (X ++ ('}' :: [])) := by
    apply List.take_of_length_le
    simp
    omega
  have hextract : extractFB
      ('\\' :: 'c' :: 'm' :: 'd' :: '{' :: (X ++ ('}' :: []))).length
      ('\\' :: 'c' :: 'm' :: 'd' :: '{' :: (X ++ ('}' :: []))) = X := by
    have h1 : ('\\' :: 'c' :: 'm' :: 'd' :: '{' :: (X ++ ('}' :: []))).length
        = (X.length + 1) + 5 := by
      simp
    rw [h1]
    exact extractFB_shape X hX (X.length + 1)
  have hdrop : ('\\' :: 'c' :: 'm' :: 'd' :: '{' :: (X ++ ('}' :: []))).drop
      (6 + X.length) = [] := by
    apply List.drop_eq_nil_of_le
    simp
    omega
  have hpass1 : subCmdPass ['c', 'm', 'd'] true
      (((X ++ ('}' :: [])).length + 4) + 1)
      ('\\' :: 'c' :: 'm' :: 'd' :: '{' :: (X ++ ('}' :: [])))
      = (X, true) := by
    rw [subCmdPass_cons_match hm]
    simp only [if_true]
    rw [htake, hextract, hdrop,
      subCmdPass_no_brace ['c', 'm', 'd'] true _ [] (by simp)]
    simp
  have hpass2 : subCmdPass ['c', 'm', 'd'] true X.length X = (X, false) :=
    subCmdPass_no_brace ['c', 'm', 'd'] true X.length X (fun c hc => (hX c hc).1)
  have hlen : ('\\' :: 'c' :: 'm' :: 'd' :: '{' :: (X ++ ('}' :: []))).length
      = (((X ++ ('}' :: [])).length + 4) + 1) := by simp
  rw [removeCommand, removeCommandLoop, hlen, hpass1]
  show removeCommandLoop ['c', 'm', 'd'] true (((X ++ ('}' :: [])).length + 4) + 1) X = X
  rw [removeCommandLoop, hpass2]
  rfl
/-- C6 — counterexample.  When the match ends exactly at the end of the text,
`_remove_command` with `keep_text=False` replaces it by the empty string, not
by a comment character: `\\cmd{X}` becomes `\x27\x27`, not `%`. -/
theorem removeCommand_end_noPct :
    removeCommand ("\\cmd\x7bX\x7d".toList) ("cmd".toList) false = []
      ∧ ¬ removeCommand ("\\cmd\x7bX\x7d".toList) ("cmd".toList) false = ['%'] := by
  decide

/-- C6 (amended).  For every brace-free argument `X`, `_remove_command` with
`keep_text=False` on `\\cmd{X}\n` (remainder of the match's line empty)
yields `%\n`; but when the match ends exactly at the end of the text the
replacement is the empty string (the `match.end() < len(text)` guard skips the
comment-character substitution). -/
theorem removeCommand_pct_amended (X : List Char)
    (hX : ∀ c ∈ X, c ≠ '{' ∧ c ≠ '}') :
    removeCommand ('\\' :: 'c' :: 'm' :: 'd' :: '{' :: (X ++ ('}' :: ['\n'])))
        ['c', 'm', 'd'] false = ['%', '\n']
      ∧ removeCommand ('\\' :: 'c' :: 'm' :: 'd' :: '{' :: (X ++ ('}' :: [])))
        ['c', 'm', 'd'] false = [] :=
  ⟨removeCommand_line_end X hX, removeCommand_text_end X hX⟩

/-- C6 — witness at the concrete argument `X = "Y"`. -/
theorem removeCommand_pct_amended_witness :
    (∀ c ∈ (['Y'] : List Char), c ≠ '{' ∧ c ≠ '}')
      ∧ (removeCommand ('\\' :: 'c' :: 'm' :: 'd' :: '{' :: (['Y'] ++ ('}' :: ['\n'])))
            ['c', 'm', 'd'] false = ['%', '\n']
          ∧ removeCommand ('\\' :: 'c' :: 'm' :: 'd' :: '{' :: (['Y'] ++ ('}' :: [])))
            ['c', 'm', 'd'] false = []) :=
  ⟨by decide, removeCommand_pct_amended ['Y'] (by decide)⟩

/-- C9 — counterexample.  `_remove_command` with `keep_text=True` does not
always replace an invocation by the text inside its balanced-brace argument:
on `\\cmd[{}]{X}` the bracket option `[{}]` is part of the match, and
`extract_text_inside_curly_braces` grabs the FIRST balanced group `{}` inside
it, so the result is the empty string, not `X`. -/
theorem removeCommand_opts_swallow :
    removeCommand ("\\cmd[\x7b\x7d]\x7bX\x7d".toList) ("cmd".toList) true = []
      ∧ ¬ removeCommand ("\\cmd[\x7b\x7d]\x7bX\x7d".toList) ("cmd".toList) true = ['X'] := by
  decide

/-- C9 (amended).  Without bracket options the round-trip holds: for every
brace-free `X`, `keep_text=True` on `\\cmd{X}` yields exactly `X` (one
unwrapping pass, then a pass with no match), and nested invocations are fully
unwrapped: `A\\cmd{B\\cmd{C}}D` yields `ABCD`. -/
theorem removeCommand_keep_amended (X : List Char)
    (hX : ∀ c ∈ X, c ≠ '{' ∧ c ≠ '}') :
    removeCommand ('\\' :: 'c' :: 'm' :: 'd' :: '{' :: (X ++ ('}' :: [])))
        ['c', 'm', 'd'] true = X
      ∧ removeCommand ("A\\cmd\x7bB\\cmd\x7bC\x7d\x7dD".toList) ("cmd".toList) true
        = "ABCD".toList :=
  ⟨removeCommand_keep X hX, by decide⟩

/-- C9 — witness at the concrete argument `X = "Y"`. -/
theorem removeCommand_keep_amended_witness :
    (∀ c ∈ (['Y'] : List Char), c ≠ '{' ∧ c ≠ '}')
      ∧ (removeCommand ('\\' :: 'c' :: 'm' :: 'd' :: '{' :: (['Y'] ++ ('}' :: [])))
            ['c', 'm', 'd'] true = ['Y']
          ∧ removeCommand ("A\\cmd\x7bB\\cmd\x7bC\x7d\x7dD".toList) ("cmd".toList) true
            = "ABCD".toList) :=
  ⟨by decide, removeCommand_keep_amended ['Y'] (by decide)⟩

/-! ### Shallow embedding of `_search_reference` -/

/-- `[\s%]` : whitespace or the comment character. -/
def wsPct (c : Char) : Bool := isSpaceChar c || c = '%'

/-- Case-insensitive literal prefix match (the pattern is compiled with
`regex.IGNORECASE` and the filename contains no metacharacter other than the
escaped dot). -/
def ciPrefix : List Char → List Char → Bool
  | [], _ => true
  | _ :: _, [] => false
  | a :: f, b :: s => (a.toLower == b.toLower) && ciPrefix f s

/-- `[\s%]*\}` : optional padding then the closing brace. -/
def closeOK : List Char → Bool
  | [] => false
  | c :: rest => if c = '}' then true else wsPct c && closeOK rest

/-- The filename, optional padding, closing brace. -/
def strictTail (f : List Char) (s : List Char) : Bool :=
  ciPrefix f s && closeOK (s.drop f.length)

/-- `(.` `/` `)?` then the filename part: the relative-prefix group matches
ANY non-newline character followed by `/` (the dot in the source is an
unescaped regex wildcard). -/
def tailMatch (f : List Char) (s : List Char) : Bool :=
  strictTail f s ||
    (match s with
     | [] => false
     | [_] => false
     | c :: d :: s2 => decide (c ≠ '\n') && ((d = '/' : Bool) && strictTail f s2))

/-- `[\s%]*` after the opening brace: try every padding length. -/
def tryPads (f : List Char) : List Char → Bool
  | [] => tailMatch f []
  | c :: rest => tailMatch f (c :: rest) || (wsPct c && tryPads f rest)

/-- `regex.search` of the strict pattern
`\{[\s%]*(.` `/` `)?f[\s%]*\}` (dots of `f` escaped, `IGNORECASE`). -/
def strictFound (f : List Char) : List Char → Bool
  | [] => false
  | c :: rest => ((c = '{' : Bool) && tryPads f rest) || strictFound f rest

/-- The CLAIMED strict semantics (spec wording): the optional relative prefix
is literally `./`, not any character followed by `/`. -/
def claimedTailMatch (f : List Char) (s : List Char) : Bool :=
  strictTail f s ||
    (match s with
     | [] => false
     | [_] => false
     | c :: d :: s2 => (c = '.' : Bool) && ((d = '/' : Bool) && strictTail f s2))

def claimedTryPads (f : List Char) : List Char → Bool
  | [] => claimedTailMatch f []
  | c :: rest => claimedTailMatch f (c :: rest) || (wsPct c && claimedTryPads f rest)

def claimedStrictFound (f : List Char) : List Char → Bool
  | [] => false
  | c :: rest => ((c = '{' : Bool) && claimedTryPads f rest) || claimedStrictFound f rest

/-- Declarative characterization of the strict search. -/
def StrictSpec (f contents : List Char) : Prop :=
  ∃ pre pad1 opt fm pad2 post,
    contents = pre ++ ('{' :: (pad1 ++ (opt ++ (fm ++ (pad2 ++ ('}' :: post))))))
    ∧ (∀ c ∈ pad1, wsPct c = true)
    ∧ (opt = [] ∨ ∃ c, c ≠ '\n' ∧ opt = [c, '/'])
    ∧ ciPrefix f fm = true ∧ fm.length = f.length
    ∧ (∀ c ∈ pad2, wsPct c = true)

/-! Loose mode: stem, optional extension, and the chain of optional
path-prefix fragments (with the stray `(/)?` innermost group produced by the
unfiltered `.` parent). -/

/-- Split a path into its `/`-separated components. -/
def pathComponents : List Char → List (List Char)
  | [] => [[]]
  | c :: rest =>
    match pathComponents rest with
    | [] => [[]]
    | comp :: comps => if c = '/' then [] :: comp :: comps else (c :: comp) :: comps

/-- `pathlib` stem/suffix of a basename: split at the last dot, provided it is
neither absent nor in leading position. -/
def splitDot (base : List Char) : List Char × List Char :=
  let i := base.reverse.indexOf '.'
  if i < base.length ∧ 0 < base.length - 1 - i then
    (base.take (base.length - 1 - i), base.drop (base.length - 1 - i))
  else (base, [])

/-- The language of the nested optional prefix groups
`((((/)?a/)?b/)?c/)?` built by the source loop (innermost the stray `(/)?`). -/
def chainLang (frags : List (List Char)) : List (List Char) :=
  frags.foldl (fun acc frag => [] :: acc.map (fun p => p ++ (frag ++ ['/'])))
    [[], ['/']]

/-- After the optional prefix chain: stem, optional extension, padding,
closing brace. -/
def looseTail (stem ext : List Char) (frags : List (List Char))
    (s : List Char) : Bool :=
  (chainLang frags).any (fun p =>
    ciPrefix p s &&
      (ciPrefix stem (s.drop p.length) &&
        (closeOK ((s.drop p.length).drop stem.length) ||
          (ciPrefix ext ((s.drop p.length).drop stem.length) &&
            closeOK (((s.drop p.length).drop stem.length).drop ext.length)))))

def looseAt (stem ext : List Char) (frags : List (List Char))
    (s : List Char) : Bool :=
  looseTail stem ext frags s ||
    (match s with
     | [] => false
     | [_] => false
     | c :: d :: s2 =>
       decide (c ≠ '\n') && ((d = '/' : Bool) && looseTail stem ext frags s2))

def loosePads (stem ext : List Char) (frags : List (List Char)) :
    List Char → Bool
  | [] => looseAt stem ext frags []
  | c :: rest =>
    looseAt stem ext frags (c :: rest) || (wsPct c && loosePads stem ext frags rest)

def looseScan (stem ext : List Char) (frags : List (List Char)) :
    List Char → Bool
  | [] => false
  | c :: rest =>
    ((c = '{' : Bool) && loosePads stem ext frags rest)
      || looseScan stem ext frags rest

/-- `regex.search` of the loose pattern for `filename`, assembled exactly as
in the source: fragments are the parent components, the basename is split
into stem and optional suffix. -/
def looseFound (filename contents : List Char) : Bool :=
  match pathComponents filename with
  | [] => false
  | comps =>
    let frags := comps.dropLast.filter (fun c => !(c = ['.'] || c = ([] : List Char)))
    let base := comps.getLastD []
    let se := splitDot base
    looseScan se.1 se.2 frags contents

theorem ciPrefix_decomp : ∀ (f s : List Char), ciPrefix f s = true →
    ∃ fm rest, s = fm ++ rest ∧ ciPrefix f fm = true ∧ fm.length = f.length := by
  intro f
  induction f with
  | nil => intro s h; exact ⟨[], s, rfl, rfl, rfl⟩
  | cons a f ih =>
    intro s h
    cases s with
    | nil => simp [ciPrefix] at h
    | cons b s' =>
      rw [ciPrefix, Bool.and_eq_true] at h
      obtain ⟨fm, rest, hs, hp, hl⟩ := ih s' h.2
      refine ⟨b :: fm, rest, by rw [hs]; rfl, ?_, by simp [hl]⟩
      rw [ciPrefix, Bool.and_eq_true]
      exact ⟨h.1, hp⟩

theorem ciPrefix_append : ∀ (f fm : List Char) (rest : List Char),
    ciPrefix f fm = true → fm.length = f.length →
    ciPrefix f (fm ++ rest) = true := by
  intro f
  induction f with
  | nil => intro fm rest hp hl; rfl
  | cons a f ih =>
    intro fm rest hp hl
    cases fm with
    | nil => simp at hl
    | cons b fm' =>
      rw [List.cons_append, ciPrefix, Bool.and_eq_true]
      rw [ciPrefix, Bool.and_eq_true] at hp
      exact ⟨hp.1, ih fm' rest hp.2 (by simpa using hl)⟩

theorem closeOK_decomp : ∀ (s : List Char), closeOK s = true →
    ∃ pad post, s = pad ++ ('}' :: post) ∧ ∀ c ∈ pad, wsPct c = true := by
  intro s
  induction s with
  | nil => intro h; simp [closeOK] at h
  | cons c rest ih =>
    intro h
    rw [closeOK] at h
    by_cases hc : c = '}'
    · exact ⟨[], rest, by rw [hc]; rfl, by simp⟩
    · rw [if_neg hc, Bool.and_eq_true] at h
      obtain ⟨pad, post, hs, hp⟩ := ih h.2
      refine ⟨c :: pad, post, by rw [hs]; rfl, ?_⟩
      intro d hd
      rcases List.mem_cons.mp hd with rfl | hd
      · exact h.1
      · exact hp d hd

theorem closeOK_of : ∀ (pad post : List Char), (∀ c ∈ pad, wsPct c = true) →
    closeOK (pad ++ ('}' :: post)) = true := by
  intro pad
  induction pad with
  | nil =>
    intro post h
    rw [List.nil_append, closeOK, if_pos rfl]
  | cons c pad ih =>
    intro post h
    rw [List.cons_append, closeOK]
    by_cases hc : c = '}'
    · rw [if_pos hc]
    · rw [if_neg hc, Bool.and_eq_true]
      exact ⟨h c (by simp), ih post (fun d hd => h d (by simp [hd]))⟩

theorem strictTail_iff (f s : List Char) : strictTail f s = true ↔
    ∃ fm pad post, s = fm ++ (pad ++ ('}' :: post)) ∧ ciPrefix f fm = true
      ∧ fm.length = f.length ∧ ∀ c ∈ pad, wsPct c = true := by
  constructor
  · intro h
    rw [strictTail, Bool.and_eq_true] at h
    obtain ⟨fm, rest, hs, hp, hl⟩ := ciPrefix_decomp f s h.1
    have hdrop : s.drop f.length = rest := by
      rw [hs, ← hl, List.drop_left]
    rw [hdrop] at h
    obtain ⟨pad, post, hr, hpad⟩ := closeOK_decomp rest h.2
    exact ⟨fm, pad, post, by rw [hs, hr], hp, hl, hpad⟩
  · rintro ⟨fm, pad, post, rfl, hp, hl, hpad⟩
    rw [strictTail, Bool.and_eq_true]
    constructor
    · exact ciPrefix_append f fm _ hp hl
    · rw [← hl, List.drop_left]
      exact closeOK_of pad post hpad

theorem tailMatch_iff (f s : List Char) : tailMatch f s = true ↔
    ∃ opt rest2, s = opt ++ rest2 ∧ (opt = [] ∨ ∃ c, c ≠ '\n' ∧ opt = [c, '/'])
      ∧ strictTail f rest2 = true := by
  constructor
  · intro h
    unfold tailMatch at h
    rw [Bool.or_eq_true] at h
    rcases h with h | h
    · exact ⟨[], s, rfl, Or.inl rfl, h⟩
    · match s, h with
      | c :: d :: s2, h => ?_
      rw [Bool.and_eq_true, decide_eq_true_eq, Bool.and_eq_true,
        decide_eq_true_eq] at h
      obtain ⟨h1, h2, h3⟩ := h
      subst h2
      exact ⟨[c, '/'], s2, rfl, Or.inr ⟨c, h1, rfl⟩, h3⟩
  · rintro ⟨opt, rest2, rfl, hopt, ht⟩
    unfold tailMatch
    rw [Bool.or_eq_true]
    rcases hopt with rfl | ⟨c, hc, rfl⟩
    · exact Or.inl ht
    · right
      show (decide (c ≠ '\n') && ((('/' : Char) = '/' : Bool) && strictTail f rest2)) = true
      rw [Bool.and_eq_true, decide_eq_true_eq, Bool.and_eq_true,
        decide_eq_true_eq]
      exact ⟨hc, rfl, ht⟩

theorem tryPads_iff (f : List Char) : ∀ (s : List Char), tryPads f s = true ↔
    ∃ pad rest, s = pad ++ rest ∧ (∀ c ∈ pad, wsPct c = true)
      ∧ tailMatch f rest = true := by
  intro s
  induction s with
  | nil =>
    rw [tryPads]
    constructor
    · intro h
      exact ⟨[], [], rfl, by simp, h⟩
    · rintro ⟨pad, rest, heq, hpad, ht⟩
      obtain ⟨rfl, rfl⟩ := List.append_eq_nil.mp heq.symm
      exact ht
  | cons c rest ih =>
    rw [tryPads, Bool.or_eq_true]
    constructor
    · intro h
      rcases h with h | h
      · exact ⟨[], c :: rest, rfl, by simp, h⟩
      · rw [Bool.and_eq_true] at h
        obtain ⟨pad, r2, heq, hpad, ht⟩ := ih.mp h.2
        refine ⟨c :: pad, r2, by rw [heq]; rfl, ?_, ht⟩
        intro d hd
        rcases List.mem_cons.mp hd with rfl | hd
        · exact h.1
        · exact hpad d hd
    · rintro ⟨pad, r2, heq, hpad, ht⟩
      cases pad with
      | nil =>
        rw [List.nil_append] at heq
        left
        rw [heq]
        exact ht
      | cons d pad' =>
        right
        obtain ⟨hd, htl⟩ := List.cons.inj heq
        rw [Bool.and_eq_true]
        refine ⟨by rw [hd]; exact hpad d (by simp), ?_⟩
        exact ih.mpr ⟨pad', r2, htl, fun e he => hpad e (by simp [he]), ht⟩

theorem strictFound_iff0 (f : List Char) : ∀ (contents : List Char),
    strictFound f contents = true ↔
    ∃ pre rest, contents = pre ++ ('{' :: rest) ∧ tryPads f rest = true := by
  intro contents
  induction contents with
  | nil =>
    constructor
    · intro h
      simp [strictFound] at h
    · rintro ⟨pre, rest, heq, -⟩
      exact absurd heq (by simp)
  | cons c r ih =>
    rw [strictFound, Bool.or_eq_true]
    constructor
    · intro h
      rcases h with h | h
      · rw [Bool.and_eq_true, decide_eq_true_eq] at h
        exact ⟨[], r, by rw [h.1]; rfl, h.2⟩
      · obtain ⟨pre, rest, heq, ht⟩ := ih.mp h
        exact ⟨c :: pre, rest, by rw [heq]; rfl, ht⟩
    · rintro ⟨pre, rest, heq, ht⟩
      cases pre with
      | nil =>
        left
        obtain ⟨h1, h2⟩ := List.cons.inj heq
        rw [Bool.and_eq_true, decide_eq_true_eq]
        exact ⟨h1, h2 ▸ ht⟩
      | cons d pre' =>
        right
        obtain ⟨-, h2⟩ := List.cons.inj heq
        exact ih.mpr ⟨pre', rest, h2, ht⟩

/-- C7 — counterexample.  The "relative prefix" group of the strict pattern
is `(.` `/` `)?` with an UNESCAPED dot, so it matches any non-newline
character followed by a slash: in strict mode `to/img.ext` is reported as
referenced by `{a/to/img.ext}`, although the claimed semantics (prefix
tolerance limited to a literal `./`) rejects it. -/
theorem strict_any_char_prefix :
    strictFound ("to/img.ext".toList) ("\x7ba/to/img.ext\x7d".toList) = true
      ∧ claimedStrictFound ("to/img.ext".toList) ("\x7ba/to/img.ext\x7d".toList)
        = false := by
  decide

/-- C7 (amended).  Strict-mode characterization: `_search_reference` with
`strict=True` reports `f` as referenced iff the contents contain
`\x7b`, optional whitespace/comment padding, an optional prefix of ANY single
non-newline character followed by `/`, the filename verbatim up to letter
case, optional padding, and `\x7d`. -/
theorem strictFound_iff_spec (f contents : List Char) :
    strictFound f contents = true ↔ StrictSpec f contents := by
  rw [strictFound_iff0]
  unfold StrictSpec
  constructor
  · rintro ⟨pre, rest, rfl, ht⟩
    obtain ⟨pad1, r1, rfl, hpad1, htm⟩ := (tryPads_iff f rest).mp ht
    obtain ⟨opt, r2, rfl, hopt, hst⟩ := (tailMatch_iff f r1).mp htm
    obtain ⟨fm, pad2, post, rfl, hp, hl, hpad2⟩ := (strictTail_iff f r2).mp hst
    exact ⟨pre, pad1, opt, fm, pad2, post, by simp, hpad1, hopt, hp, hl, hpad2⟩
  · rintro ⟨pre, pad1, opt, fm, pad2, post, rfl, hpad1, hopt, hp, hl, hpad2⟩
    refine ⟨pre, pad1 ++ (opt ++ (fm ++ (pad2 ++ ('\x7d' :: post)))), rfl, ?_⟩
    exact (tryPads_iff f _).mpr ⟨pad1, _, rfl, hpad1,
      (tailMatch_iff f _).mpr ⟨opt, _, rfl, hopt,
        (strictTail_iff f _).mpr ⟨fm, pad2, post, rfl, hp, hl, hpad2⟩⟩⟩

/-- C8.  Loose-mode concrete behaviour: `images/im_included.png` matches
`\\include{im_included.png}`, `\\include{images/im_included.png}` and
`\\include{./images/im_included.png}` but not
`\\include{other/im_included.png}`; and `long/path/to/img.ext` does not
match `{long/to/img.ext}` (omitted components must be a contiguous prefix cut,
never a mid-path gap). -/
theorem looseFound_cases :
    looseFound ("images/im_included.png".toList)
        ("\\include\x7bim_included.png\x7d".toList) = true
      ∧ looseFound ("images/im_included.png".toList)
        ("\\include\x7bimages/im_included.png\x7d".toList) = true
      ∧ looseFound ("images/im_included.png".toList)
        ("\\include\x7b./images/im_included.png\x7d".toList) = true
      ∧ looseFound ("images/im_included.png".toList)
        ("\\include\x7bother/im_included.png\x7d".toList) = false
      ∧ looseFound ("long/path/to/img.ext".toList)
        ("\x7blong/to/img.ext\x7d".toList) = false := by
  decide

/-! ### Shallow embedding of `_keep_only_referenced_tex` -/

/-- `os.path.splitext(fn)[0]`: strip the extension (the part from the last
dot of the basename, ignoring its leading dots). -/
def splitExtStem (fn : List Char) : List Char :=
  let base := (pathComponents fn).getLastD []
  let pre := fn.take (fn.length - base.length)
  let lead := base.takeWhile (· = '.')
  let rest := base.drop lead.length
  let i := rest.reverse.indexOf '.'
  if i < rest.length then pre ++ (lead ++ rest.take (rest.length - 1 - i))
  else fn

/-- `regex.search(r'(' + stem + r'[.}])', body)` for a stem without regex
metacharacters: the stem occurs followed by `.` or `\x7d`. -/
def stemHit (stem : List Char) : List Char → Bool
  | [] => false
  | c :: rest =>
    (stem.isPrefixOf (c :: rest) &&
      (match (c :: rest).drop stem.length with
       | d :: _ => d = '.' || d = '}'
       | [] => false))
    || stemHit stem rest

/-- One pass of the loop body: the new `referenced` set computed from
`old_referenced` (a file is kept when its stem is referenced from ANY member
of the previous set, itself included). -/
def refStep (contents : List Char → List Char)
    (roots old : Finset (List Char)) : Finset (List Char) :=
  roots ∪ old.filter
    (fun fn => ∃ fn2 ∈ old, stemHit (splitExtStem fn) (contents fn2) = true)

/-- The `while True` loop: iterate until the set stops changing. -/
def kortLoop (contents : List Char → List Char) (roots : Finset (List Char)) :
    Nat → Finset (List Char) → Finset (List Char)
  | 0, old => old
  | fuel + 1, old =>
    if refStep contents roots old = old then old
    else kortLoop contents roots fuel (refStep contents roots old)

/-- Shallow embedding of `_keep_only_referenced_tex`: the iteration starts
DOWNWARD from the full candidate set (every non-fixpoint pass strictly
shrinks it, so `card + 1` iterations reach the fixpoint). -/
def keepOnlyReferencedTex (contents : List Char → List Char)
    (roots nonroot : Finset (List Char)) : Finset (List Char) :=
  kortLoop contents roots ((roots ∪ nonroot).card + 1) (roots ∪ nonroot)

theorem refStep_roots (contents : List Char → List Char)
    (roots old : Finset (List Char)) : roots ⊆ refStep contents roots old :=
  Finset.subset_union_left

theorem refStep_subset (contents : List Char → List Char)
    {roots old : Finset (List Char)} (h : roots ⊆ old) :
    refStep contents roots old ⊆ old := by
  intro x hx
  rw [refStep, Finset.mem_union] at hx
  rcases hx with hx | hx
  · exact h hx
  · exact (Finset.mem_filter.mp hx).1

theorem refStep_mono (contents : List Char → List Char)
    (roots : Finset (List Char)) {S S' : Finset (List Char)} (h : S ⊆ S') :
    refStep contents roots S ⊆ refStep contents roots S' := by
  intro x hx
  rw [refStep, Finset.mem_union] at hx ⊢
  rcases hx with hx | hx
  · exact Or.inl hx
  · right
    obtain ⟨hxS, fn2, hfn2, hhit⟩ := Finset.mem_filter.mp hx
    exact Finset.mem_filter.mpr ⟨h hxS, fn2, h hfn2, hhit⟩

theorem kortLoop_props (contents : List Char → List Char)
    (roots : Finset (List Char)) :
    ∀ (fuel : Nat) (old : Finset (List Char)), roots ⊆ old → old.card < fuel →
    roots ⊆ kortLoop contents roots fuel old
      ∧ kortLoop contents roots fuel old ⊆ old
      ∧ refStep contents roots (kortLoop contents roots fuel old)
          = kortLoop contents roots fuel old
      ∧ ∀ T, T ⊆ old → T ⊆ refStep contents roots T →
          T ⊆ kortLoop contents roots fuel old := by
  intro fuel
  induction fuel with
  | zero =>
    intro old hroots hcard
    omega
  | succ n ih =>
    intro old hroots hcard
    rw [kortLoop]
    by_cases hfix : refStep contents roots old = old
    · rw [if_pos hfix]
      exact ⟨hroots, Finset.Subset.refl old, hfix, fun T hT _ => hT⟩
    · rw [if_neg hfix]
      have hsub : refStep contents roots old ⊆ old := refStep_subset contents hroots
      have hss : refStep contents roots old ⊂ old :=
        Finset.ssubset_iff_subset_ne.mpr ⟨hsub, hfix⟩
      have hcard2 : (refStep contents roots old).card < n := by
        have := Finset.card_lt_card hss
        omega
      obtain ⟨h1, h2, h3, h4⟩ := ih (refStep contents roots old)
        (refStep_roots contents roots old) hcard2
      refine ⟨h1, h2.trans hsub, h3, ?_⟩
      intro T hT hTF
      exact h4 T ((hTF.trans (refStep_mono contents roots hT))) hTF

/-- C3 — counterexample.  The iteration runs DOWNWARD from the full candidate
set, not upward from the roots: two non-root files `A.tex` and `B.tex` that
only reference each other survive every pass (each is referenced from a
member of the previous set), so the result is all three files, not just the
root — contradicting the claimed least-fixed-point semantics. -/
theorem kort_mutual_kept :
    keepOnlyReferencedTex
        (fun fn => if fn = "A.tex".toList then "\x7bB.tex\x7d".toList
          else if fn = "B.tex".toList then "\x7bA.tex\x7d".toList else [])
        {"R.tex".toList} {"A.tex".toList, "B.tex".toList}
      = {"R.tex".toList, "A.tex".toList, "B.tex".toList}
    ∧ ¬ keepOnlyReferencedTex
        (fun fn => if fn = "A.tex".toList then "\x7bB.tex\x7d".toList
          else if fn = "B.tex".toList then "\x7bA.tex\x7d".toList else [])
        {"R.tex".toList} {"A.tex".toList, "B.tex".toList}
      = {"R.tex".toList} := by
  decide

/-- C3 (amended).  `_keep_only_referenced_tex` computes the GREATEST set `R`
between the roots and the full candidate set that is a fixed point of one
pass: the roots are in `R`, `R` only contains candidates, `R` is unchanged by
a further pass, and every set of candidates each member of which is root or
referenced from within the set is contained in `R`. -/
theorem kort_amended (contents : List Char → List Char)
    (roots nonroot : Finset (List Char)) :
    roots ⊆ keepOnlyReferencedTex contents roots nonroot
    ∧ keepOnlyReferencedTex contents roots nonroot ⊆ roots ∪ nonroot
    ∧ refStep contents roots (keepOnlyReferencedTex contents roots nonroot)
        = keepOnlyReferencedTex contents roots nonroot
    ∧ ∀ T, T ⊆ roots ∪ nonroot → T ⊆ refStep contents roots T →
        T ⊆ keepOnlyReferencedTex contents roots nonroot :=
  kortLoop_props contents roots ((roots ∪ nonroot).card + 1) (roots ∪ nonroot)
    Finset.subset_union_left (by omega)

end ArxivCleaner
